import Mathlib

/-!
# Verification of the grammar-inference and sequence-evaluation engine

A shallow embedding of the core of the `security-dfa-gen` repository:
the PTA builder (`src/automata/pta.cpp`), the DFA constructor, minimizer
and CNF exporter (`src/automata/dfa.cpp`), the grammar loader and
grammar classifier (`src/core/simulator_core.cpp`), and the PDA
simulator (`src/api/main.cpp`).  C++ `std::unordered_map` transition
tables are modelled by association lists with the map's
lookup/overwrite semantics; `std::size_t` state ids are `Nat`;
functions that `throw` return `Option`.  While loops are modelled by
structurally recursive functions with an explicit fuel argument chosen
large enough (sufficiency is proved where a claim depends on it).
Definitions come first, all theorems follow at the end of the file.
-/

set_option maxRecDepth 400000

namespace AutomataSecurity

/-! ## Association-list maps (model of `std::unordered_map<std::string, ...>`) -/

/-- Lookup in an association list: the binding of key `a`, if any
(model of `map.find(a)`). -/
def lookupTr {β : Type} (l : List (String × β)) (a : String) : Option β :=
  match l with
  | [] => none
  | (b, t) :: rest => if b = a then some t else lookupTr rest a

/-- Overwrite-or-insert for an association list (model of `map[a] = t`). -/
def setTr {β : Type} (l : List (String × β)) (a : String) (t : β) : List (String × β) :=
  match l with
  | [] => [(a, t)]
  | (b, u) :: rest => if b = a then (b, t) :: rest else (b, u) :: setTr rest a t

/-- Lexicographic comparison of character lists, by code point; the
order used by `std::string::operator<` (byte-wise lexicographic, which
agrees with code points on the ASCII data handled here). -/
def strLtB : List Char → List Char → Bool
  | [], [] => false
  | [], _ :: _ => true
  | _ :: _, [] => false
  | c :: cs, d :: ds => if c = d then strLtB cs ds else decide (c.toNat < d.toNat)

/-- `std::string` comparison. -/
def strLt (a b : String) : Bool := strLtB a.toList b.toList

/-- Sorted insertion of a string into a sorted duplicate-free list; models
collecting strings into a set and sorting (`std::unordered_set` followed
by `std::sort`, or iteration over a `std::set<std::string>`). -/
def sortedInsert (a : String) (l : List String) : List String :=
  match l with
  | [] => [a]
  | b :: rest =>
    if strLt a b then a :: b :: rest
    else if a = b then b :: rest
    else b :: sortedInsert a rest

/-- First index of a string in a list (model of finding a key that maps
to its insertion index). -/
def indexOfStr (l : List String) (a : String) : Option Nat :=
  match l with
  | [] => none
  | b :: rest => if b = a then some 0 else (indexOfStr rest a).map (· + 1)

/-! ## PTA (`src/automata/pta.cpp`) -/

/-- A labeled training sample (`LabeledSequence`); provenance fields that
do not enter the core are omitted. -/
structure LabeledSequence where
  id : String := ""
  symbols : List String := []
  label : Bool := false
  deriving Repr, DecidableEq, Inhabited

/-- A PTA trie node (`PTA::Node`). -/
structure PTANode where
  id : Nat := 0
  transitions : List (String × Nat) := []
  positive_count : Nat := 0
  negative_count : Nat := 0
  deriving Repr, DecidableEq, Inhabited

/-- A prefix tree acceptor (`PTA`): node arena plus start id. -/
structure PTA where
  nodes : List PTANode := []
  start_state : Nat := 0
  deriving Repr, DecidableEq, Inhabited

namespace PTA

/-- The PTA holding only the root node (`PTA::ensure_root`). -/
def root : PTA := { nodes := [{ id := 0 }], start_state := 0 }

/-- Walk/grow the trie along one sample's symbols, returning the updated
node arena and the node reached (the symbol loop of `PTA::build`).
A missing edge appends a fresh node (`add_node`, id = current size) and
wires the edge from the current node to it. -/
def insertSymbols (nodes : List PTANode) (current : Nat) :
    List String → List PTANode × Nat
  | [] => (nodes, current)
  | symbol :: rest =>
    match lookupTr (nodes.getD current default).transitions symbol with
    | some child => insertSymbols nodes child rest
    | none =>
      let child_id := nodes.length
      let nodes1 := nodes ++ [{ id := child_id }]
      let node := nodes1.getD current default
      let nodes2 := nodes1.set current
        { node with transitions := setTr node.transitions symbol child_id }
      insertSymbols nodes2 child_id rest

/-- Insert one labeled sample: walk/grow the trie, then bump the
positive or negative count of the node reached. -/
def addSample (nodes : List PTANode) (start : Nat) (sample : LabeledSequence) :
    List PTANode :=
  let res := insertSymbols nodes start sample.symbols
  let node := res.1.getD res.2 default
  res.1.set res.2
    (if sample.label then { node with positive_count := node.positive_count + 1 }
     else { node with negative_count := node.negative_count + 1 })

/-- `PTA::build`: rebuild from scratch (root only), then insert every
sample in order. -/
def build (samples : List LabeledSequence) : PTA :=
  { nodes := samples.foldl (fun ns s => addSample ns 0 s) root.nodes
    start_state := 0 }

end PTA

/-! ## DFA (`src/automata/dfa.cpp`) -/

/-- A DFA state record (`DFA::State`). -/
structure DFAState where
  transitions : List (String × Nat) := []
  positive_count : Nat := 0
  negative_count : Nat := 0
  accepting : Bool := false
  deriving Repr, DecidableEq, Inhabited

/-- A DFA (`class DFA`).  The C++ sentinel `sink_state_ = SIZE_MAX`
(no sink) is modelled by `none`. -/
structure DFA where
  states : List DFAState := []
  start_state : Nat := 0
  alphabet : List String := []
  sink_state : Option Nat := none
  deriving Repr, DecidableEq, Inhabited

namespace DFA

/-- Does some (state, symbol) pair lack a transition?  (The scan at the
top of `DFA::ensure_complete_transitions`.) -/
def needsSink (states : List DFAState) (alphabet : List String) : Bool :=
  states.any fun st => alphabet.any fun a => (lookupTr st.transitions a).isNone

/-- `DFA::ensure_complete_transitions` on the state table: if the
alphabet is empty do nothing; otherwise, if any transition is missing,
append a non-accepting sink (counts 0 positive / 1 pseudo-negative)
that loops to itself on every symbol, and point every missing
(state, symbol) pair at it. -/
def ensure_complete_transitions (states : List DFAState) (alphabet : List String) :
    List DFAState × Option Nat :=
  if alphabet = [] then (states, none)
  else if needsSink states alphabet then
    let sink_id := states.length
    let sink : DFAState :=
      { transitions := alphabet.foldl (fun m a => setTr m a sink_id) []
        positive_count := 0
        negative_count := 1
        accepting := false }
    let states1 := states ++ [sink]
    let fill := fun (tr : List (String × Nat)) =>
      alphabet.foldl (fun m a => if (lookupTr m a).isNone then setTr m a sink_id else m) tr
    let states2 := states1.map fun st => { st with transitions := fill st.transitions }
    (states2, some sink_id)
  else (states, none)

/-- Convert one PTA node to a DFA state: transfer counts, derive the
accepting flag by strict majority, copy the transitions. -/
def stateOfNode (n : PTANode) : DFAState :=
  { transitions := n.transitions.foldl (fun m p => setTr m p.1 p.2) []
    positive_count := n.positive_count
    negative_count := n.negative_count
    accepting := decide (n.positive_count > n.negative_count) }

/-- The state table copied from the PTA nodes (each node's state written
at index `node.id` into a default-initialized table, as the C++ does
with `states_.resize` followed by indexed assignment). -/
def ptaStates (pta : PTA) : List DFAState :=
  pta.nodes.foldl (fun st n => st.set n.id (stateOfNode n))
    (List.replicate pta.nodes.length default)

/-- The alphabet collected from all PTA transition labels, as a sorted
duplicate-free list. -/
def ptaAlphabet (pta : PTA) : List String :=
  pta.nodes.foldl
    (fun al n => n.transitions.foldl (fun al2 p => sortedInsert p.1 al2) al) []

/-- The bounds check of `DFA::from_pta`: node ids and transition targets
must index a PTA node. -/
def ptaValid (pta : PTA) : Bool :=
  pta.nodes.all fun n => decide (n.id < pta.nodes.length) &&
    n.transitions.all fun p => decide (p.2 < pta.nodes.length)

/-- `DFA::from_pta`.  Returns `none` where the C++ throws (a node id or a
transition target out of bounds). -/
def from_pta (pta : PTA) : Option DFA :=
  if ptaValid pta then
    some { states := (ensure_complete_transitions (ptaStates pta) (ptaAlphabet pta)).1
           start_state := pta.start_state
           alphabet := ptaAlphabet pta
           sink_state := (ensure_complete_transitions (ptaStates pta) (ptaAlphabet pta)).2 }
  else none

/-- The symbol walk of `DFA::classify`: follow the transition map; on a
missing transition jump to the sink if one exists (and is in bounds),
otherwise classification fails. -/
def classifyGo (D : DFA) : Nat → List String → Bool
  | current, [] => (D.states.getD current default).accepting
  | current, symbol :: rest =>
    match lookupTr (D.states.getD current default).transitions symbol with
    | some target => classifyGo D target rest
    | none =>
      match D.sink_state with
      | some k => if k < D.states.length then classifyGo D k rest else false
      | none => false

/-- `DFA::classify`. -/
def classify (D : DFA) (sequence : List String) : Bool :=
  if D.states = [] then false
  else if D.states.length ≤ D.start_state then false
  else classifyGo D D.start_state sequence

/-! ### Minimization (`DFA::minimize`, Hopcroft-style partition refinement) -/

/-- Index of the partition block containing state `s` (the role of the
C++ `state_partition` array, which is kept in sync with `partitions`). -/
def blockIdx (parts : List (List Nat)) (s : Nat) : Option Nat :=
  match parts with
  | [] => none
  | b :: rest => if s ∈ b then some 0 else (blockIdx rest s).map (· + 1)

/-- The `involved_flag` mark computed at the top of each refinement
iteration: state `s` is marked iff it has a transition on `a` into the
block currently at index `p`. -/
def involved (D : DFA) (parts : List (List Nat)) (p : Nat) (a : String) (s : Nat) : Bool :=
  match lookupTr (D.states.getD s default).transitions a with
  | some t => blockIdx parts t = some p
  | none => false

/-- The work items the C++ enqueues when a block is split: for every
alphabet symbol, `(idx, sym)` then `(new_index, sym)`. -/
def splitEnqueue (idx new_index : Nat) : List String → List (Nat × String)
  | [] => []
  | sym :: rest => (idx, sym) :: (new_index, sym) :: splitEnqueue idx new_index rest

/-- The split decision for one block: the marked `subset` and unmarked
`remainder`; the block is split only when both are non-empty. -/
def sweepSplit (mark : Nat → Bool) (block : List Nat) : Option (List Nat × List Nat) :=
  let subset := block.filter mark
  let remainder := block.filter fun s => ! mark s
  if subset ≠ [] ∧ remainder ≠ [] then some (subset, remainder) else none

/-- One pass of the block-splitting `for` loop inside the refinement
iteration.  `idx` scans the partition list, which may grow while being
scanned (the C++ loop bound `partitions.size()` is re-read); blocks
appended during the pass are visited and never split again.  `fuel`
bounds the number of visited indices (`D.states.length` suffices for
any well-formed partition, which is proved separately).  A split
replaces the block at `idx` by its subset, appends the remainder at
`new_index = partitions.size()`, and enqueues both for every symbol. -/
def sweep (alphabet : List String) (mark : Nat → Bool) :
    Nat → Nat → List (List Nat) → List (Nat × String) →
    List (List Nat) × List (Nat × String)
  | 0, _, parts, adds => (parts, adds)
  | fuel + 1, idx, parts, adds =>
    if idx < parts.length then
      match sweepSplit mark (parts.getD idx []) with
      | some sr =>
        sweep alphabet mark fuel (idx + 1) (parts.set idx sr.1 ++ [sr.2])
          (adds ++ splitEnqueue idx parts.length alphabet)
      | none => sweep alphabet mark fuel (idx + 1) parts adds
    else (parts, adds)

/-- The main refinement loop: pop a `(partition index, symbol)` work
item, compute the marks, sweep the partition list, re-queue the work
produced by splits.  `fuel` bounds the number of iterations (the value
chosen in `minimize` provably reaches the empty queue for well-formed
inputs). -/
def refine (D : DFA) :
    Nat → List (List Nat) → List (Nat × String) → List (List Nat)
  | 0, parts, _ => parts
  | fuel + 1, parts, queue =>
    match queue with
    | [] => parts
    | (p, a) :: rest =>
      let res := sweep D.alphabet (involved D parts p a) D.states.length 0 parts []
      refine D fuel res.1 (rest ++ res.2)

/-- Build the minimized DFA from the final partition: each block becomes
one state carrying the summed counts, majority-vote accepting flag, and
the representative's transitions mapped through block indices. -/
def rebuild (D : DFA) (parts : List (List Nat)) : DFA :=
  let sp := fun s => (blockIdx parts s).getD 0
  let mkState := fun (block : List Nat) =>
    let pos := (block.map fun s => (D.states.getD s default).positive_count).sum
    let neg := (block.map fun s => (D.states.getD s default).negative_count).sum
    let rep := block.headD 0
    { transitions := (D.states.getD rep default).transitions.map fun pr => (pr.1, sp pr.2)
      positive_count := pos
      negative_count := neg
      accepting := decide (pos > neg) : DFAState }
  { states := parts.map mkState
    start_state := if parts = [] then 0 else sp D.start_state
    alphabet := D.alphabet
    sink_state :=
      match D.sink_state with
      | some k => if k < D.states.length then some (sp k) else none
      | none => none }

/-- The accepting-state indices, in ascending order. -/
def accStates (D : DFA) : List Nat :=
  (List.range D.states.length).filter fun i => (D.states.getD i default).accepting

/-- The rejecting-state indices, in ascending order. -/
def rejStates (D : DFA) : List Nat :=
  (List.range D.states.length).filter fun i => ! (D.states.getD i default).accepting

/-- The initial partition of `DFA::minimize`: the accepting set then the
rejecting set, dropping either if empty; `{0}` in the (unreachable for
non-empty state sets) degenerate case. -/
def initialParts (D : DFA) : List (List Nat) :=
  let parts0 := (if accStates D = [] then [] else [accStates D]) ++
                (if rejStates D = [] then [] else [rejStates D])
  if parts0 = [] then [[0]] else parts0

/-- The initial work queue: `(idx, symbol)` for every initial block
index and every alphabet symbol. -/
def initialQueue (D : DFA) (parts : List (List Nat)) : List (Nat × String) :=
  (List.range parts.length).foldr
    (fun idx acc => (D.alphabet.map fun a => (idx, a)) ++ acc) []

/-- `DFA::minimize`. -/
def minimize (D : DFA) : DFA :=
  if D.states = [] then D
  else
    let parts1 := initialParts D
    let queue0 := initialQueue D parts1
    let fuel := (2 * D.states.length + 2) * D.alphabet.length + 1
    rebuild D (refine D fuel parts1 queue0)

/-! ### CNF export (`DFA::to_chomsky`) -/

/-- Does a terminal need quoting (space, quote or backslash)? -/
def needQuote (s : String) : Bool :=
  s.toList.any fun c => c = ' ' ∨ c = '"' ∨ c = '\\'

/-- The `quote` lambda of `to_chomsky`: empty or special terminals are
emitted double-quoted with `"` and `\` backslash-escaped. -/
def quote (s : String) : String :=
  if s = "" then "\"\""
  else if needQuote s then
    "\"" ++
      String.mk (s.toList.foldr
        (fun c acc => if c = '"' ∨ c = '\\' then '\\' :: c :: acc else c :: acc) []) ++
      "\""
  else s

/-- The nonterminal name of state `idx`: `S` for the start state, `A#`
with `#` counting the non-start states of smaller id otherwise (the
`state_names` array plus the `name_for_state` fallback). -/
def nameForState (D : DFA) (idx : Nat) : String :=
  if idx < D.states.length then
    if idx = D.start_state then "S"
    else "A" ++ toString ((List.range idx).filter fun j => j ≠ D.start_state).length
  else "A" ++ toString idx

/-- The set of CNF alternatives for state `i` (the `opts`
`std::set<std::string>`, i.e. sorted and duplicate-free): a binary
alternative `T# target` for every transition, a unit terminal
alternative for every transition into an accepting state, and `ε` on
the start state when it accepts. -/
def chomskyOpts (D : DFA) (i : Nat) : List String :=
  let st := D.states.getD i default
  let base := st.transitions.foldl
    (fun acc pr =>
      match indexOfStr D.alphabet pr.1 with
      | none => acc
      | some k =>
        let acc1 := sortedInsert ("T" ++ toString k ++ " " ++ nameForState D pr.2) acc
        if pr.2 < D.states.length ∧ (D.states.getD pr.2 default).accepting then
          sortedInsert (quote pr.1) acc1
        else acc1)
    []
  if D.start_state < D.states.length ∧ (D.states.getD D.start_state default).accepting ∧
      i = D.start_state then
    sortedInsert "ε" base
  else base

/-- Join alternatives with ` | `. -/
def joinBar : List String → String
  | [] => ""
  | [o] => o
  | o :: rest => o ++ " | " ++ joinBar rest

/-- Join strings with `, `. -/
def joinComma : List String → String
  | [] => ""
  | [o] => o
  | o :: rest => o ++ ", " ++ joinComma rest

/-- The production lines of the grammar body: one `T# -> terminal` line
per alphabet symbol, then one rule line per state with a non-empty
alternative set. -/
def chomskyProductionLines (D : DFA) : List String :=
  ((List.range D.alphabet.length).map fun i =>
    "  T" ++ toString i ++ " -> " ++ quote (D.alphabet.getD i "")) ++
  ((List.range D.states.length).foldr
    (fun i acc =>
      let opts := chomskyOpts D i
      if opts = [] then acc
      else ("  " ++ nameForState D i ++ " -> " ++ joinBar opts) :: acc)
    [])

/-- `DFA::to_chomsky` as the list of emitted lines (the C++ emits each
line followed by `"\n"`). -/
def to_chomsky_lines (D : DFA) : List String :=
  ["# Chomsky Normal Form (CNF) grammar generated from DFA",
   "Terminals: \x7b" ++ joinComma (D.alphabet.map quote) ++ "\x7d",
   "Nonterminals: \x7bS" ++
     String.join (((List.range D.states.length).filter
       (fun i => i ≠ D.start_state)).map fun i => ", " ++ nameForState D i) ++ "\x7d",
   "Start: S",
   "Productions:"] ++
  chomskyProductionLines D

/-- `DFA::to_chomsky`: the full grammar text. -/
def to_chomsky (D : DFA) : String :=
  String.join ((to_chomsky_lines D).map fun l => l ++ "\n")

end DFA

/-! ## Grammar loader and grammar classifier (`src/core/simulator_core.cpp`) -/

/-- Is `c` one of the characters trimmed by `trim` (`" \t\r\n"`)? -/
def isTrimChar (c : Char) : Bool :=
  c = ' ' ∨ c = '\t' ∨ c = '\r' ∨ c = '\n'

/-- `trim`: strip leading and trailing `" \t\r\n"`. -/
def trim (s : String) : String :=
  String.mk (((s.toList.dropWhile isTrimChar).reverse.dropWhile isTrimChar).reverse)

/-- `unquote`: strip one pair of surrounding double quotes, if present
(no unescaping is performed, exactly as in the C++). -/
def unquote (s : String) : String :=
  let cs := s.toList
  if 2 ≤ cs.length ∧ cs.headD ' ' = '"' ∧ cs.getLast? = some '"' then
    String.mk (cs.drop 1).dropLast
  else s

/-- Split a character list at the first occurrence of `"->"` (the
`line.find("->")` step), returning the parts before and after it. -/
def splitArrow : List Char → Option (List Char × List Char)
  | [] => none
  | c :: rest =>
    if c = '-' ∧ rest.headD ' ' = '>' then some ([], rest.tail)
    else
      match splitArrow rest with
      | some (l, r) => some (c :: l, r)
      | none => none

/-- Split a character list on every occurrence of a separator character
(the `rhs.find('|')` loop; a trailing empty piece is harmless because an
empty alternative tokenizes to zero tokens and is ignored). -/
def splitOnChar (c : Char) : List Char → List (List Char)
  | [] => [[]]
  | d :: rest =>
    if d = c then [] :: splitOnChar c rest
    else
      match splitOnChar c rest with
      | l :: ls => (d :: l) :: ls
      | [] => [[d]]

/-- Whitespace tokenization with an accumulator (the
`std::istringstream >> token` loop). -/
def wordsAux : List Char → List Char → List String
  | [], acc => if acc = [] then [] else [String.mk acc.reverse]
  | c :: rest, acc =>
    if isTrimChar c then
      if acc = [] then wordsAux rest []
      else String.mk acc.reverse :: wordsAux rest []
    else wordsAux rest (c :: acc)

/-- Split a character list into whitespace-separated tokens. -/
def words (cs : List Char) : List String := wordsAux cs []

/-- The reconstructed transition table built from a CNF grammar file
(`struct GrammarDFA`).  The C++ `idx` name-to-index map is always kept
equal to the position in `names`, so it is modelled by `indexOfStr`. -/
structure GrammarDFA where
  names : List String := []
  trans : List (List (String × Nat)) := []
  accepting : List Bool := []
  start : Nat := 0
  deriving Repr, DecidableEq, Inhabited

namespace GrammarDFA

/-- The index registered for `name` (`idx[name]`); meaningful only after
`add_state_if_missing name`. -/
def idxOf (g : GrammarDFA) (name : String) : Nat :=
  (indexOfStr g.names name).getD 0

/-- `GrammarDFA::add_state_if_missing`. -/
def add_state_if_missing (g : GrammarDFA) (name : String) : GrammarDFA :=
  if name ∈ g.names then g
  else
    { g with names := g.names ++ [name]
             trans := g.trans ++ [[]]
             accepting := g.accepting ++ [false] }

/-- `GrammarDFA::set_accepting`. -/
def set_accepting (g : GrammarDFA) (name : String) : GrammarDFA :=
  let g1 := g.add_state_if_missing name
  { g1 with accepting := g1.accepting.set (g1.idxOf name) true }

/-- `GrammarDFA::add_transition`: registers both states, then overwrites
the binding `trans[idx[src]][on] = idx[dst]`. -/
def add_transition (g : GrammarDFA) (src sym dst : String) : GrammarDFA :=
  let g1 := (g.add_state_if_missing src).add_state_if_missing dst
  let i := g1.idxOf src
  { g1 with trans := g1.trans.set i (setTr (g1.trans.getD i []) sym (g1.idxOf dst)) }

/-- The rejection reason for a missing transition. -/
def reasonNoTransition (sym name : String) (i : Nat) : String :=
  "no transition on '" ++ sym ++ "' from state '" ++ name ++ "' at position " ++ toString i

/-- The rejection reason for ending in a non-accepting state. -/
def reasonNonAccepting (name : String) : String :=
  "ended in non-accepting state '" ++ name ++ "'"

/-- The walk of `GrammarDFA::classify_with_reason` from state `cur` with
`i` symbols already consumed. -/
def cwrGo (g : GrammarDFA) : Nat → Nat → List String → Bool × String
  | cur, _, [] =>
    if g.accepting.getD cur false then (true, "accepted")
    else (false, reasonNonAccepting (g.names.getD cur ""))
  | cur, i, sym :: rest =>
    match lookupTr (g.trans.getD cur []) sym with
    | none => (false, reasonNoTransition sym (g.names.getD cur "") i)
    | some t => cwrGo g t (i + 1) rest

/-- `GrammarDFA::classify_with_reason`. -/
def classify_with_reason (g : GrammarDFA) (seq : List String) : Bool × String :=
  if g.names = [] then (false, "empty grammar")
  else cwrGo g g.start 0 seq

end GrammarDFA

/-- The rule lists accumulated by the parsing loop of
`load_cnf_grammar`: the `T# -> terminal` helper map, the unit/epsilon
rules, the binary rules (stored re-joined as `"T# N"`, exactly as the
C++ does), and the nonterminal set in first-seen order. -/
structure ParsedGrammar where
  T_to_term : List (String × String) := []
  terminal_rules : List (String × String) := []
  binary_rules : List (String × String) := []
  nonterminals : List String := []
  deriving Repr, DecidableEq, Inhabited

/-- Process the alternatives of one rule line (the `while (pos < rhs.size())`
loop): `ε` and single tokens become terminal rules, two tokens become a
binary rule, anything else is ignored. -/
def parseAlternatives (lhs : String) (rhs : String) (acc : ParsedGrammar) : ParsedGrammar :=
  (splitOnChar '|' rhs.toList).foldl
    (fun a altChars =>
      let alt := trim (String.mk altChars)
      if alt = "ε" then
        { a with terminal_rules := a.terminal_rules ++ [(lhs, "ε")] }
      else
        let toks := words alt.toList
        if toks.length = 1 then
          let atom := toks.headD ""
          if atom ≠ "" ∧ atom.toList.headD ' ' = 'T' then
            { a with terminal_rules := a.terminal_rules ++ [(lhs, atom)] }
          else
            { a with terminal_rules := a.terminal_rules ++ [(lhs, unquote atom)] }
        else if toks.length = 2 then
          { a with binary_rules :=
              a.binary_rules ++ [(lhs, toks.getD 0 "" ++ " " ++ toks.getD 1 "")] }
        else a)
    acc

/-- Process one grammar line: skip blanks and `#` comments and lines
without `->`; a `T`-prefixed left-hand side records a terminal helper,
anything else records a nonterminal and its alternatives. -/
def parseLine (acc : ParsedGrammar) (line0 : String) : ParsedGrammar :=
  let line := trim line0
  if line = "" then acc
  else if line.toList.headD ' ' = '#' then acc
  else
    match splitArrow line.toList with
    | none => acc
    | some (l, r) =>
      let lhs := trim (String.mk l)
      let rhs := trim (String.mk r)
      if lhs ≠ "" ∧ lhs.toList.headD ' ' = 'T' then
        { acc with T_to_term := setTr acc.T_to_term lhs (unquote (trim rhs)) }
      else
        let acc1 :=
          { acc with nonterminals :=
              if lhs ∈ acc.nonterminals then acc.nonterminals
              else acc.nonterminals ++ [lhs] }
        parseAlternatives lhs rhs acc1

/-- Apply one terminal rule: `ε` marks the state accepting; a known `T#`
atom or a literal terminal becomes a transition into `Accept`; an
unknown `T#` atom is dropped. -/
def applyTerminalRule (tmap : List (String × String)) (g : GrammarDFA)
    (p : String × String) : GrammarDFA :=
  if p.2 = "ε" then g.set_accepting p.1
  else if p.2 ≠ "" ∧ p.2.toList.headD ' ' = 'T' then
    match lookupTr tmap p.2 with
    | some term => g.add_transition p.1 term "Accept"
    | none => g
  else g.add_transition p.1 p.2 "Accept"

/-- Apply one binary rule `lhs -> t0 t1`: the transition label is the
terminal `t0` maps to (falling back to the literal `t0` when it is an
unknown helper), the target is `t1`. -/
def applyBinaryRule (tmap : List (String × String)) (g : GrammarDFA)
    (p : String × String) : GrammarDFA :=
  let toks := words p.2.toList
  let t0 := toks.getD 0 ""
  let t1 := toks.getD 1 ""
  let term :=
    if t0 ≠ "" ∧ t0.toList.headD ' ' = 'T' then (lookupTr tmap t0).getD t0
    else unquote t0
  g.add_transition p.1 term t1

/-- `load_cnf_grammar` on the list of lines of the grammar file: parse
every line, create a state per nonterminal, add the synthetic accepting
`Accept` state, pick the start state (`S` if present, else index 0),
then apply all terminal rules followed by all binary rules. -/
def load_cnf_grammar (lines : List String) : GrammarDFA :=
  let pg := lines.foldl parseLine {}
  let g1 := pg.nonterminals.foldl (fun g nt => g.add_state_if_missing nt) ({} : GrammarDFA)
  let g2 := g1.set_accepting "Accept"
  let g3 :=
    if "S" ∈ g2.names then { g2 with start := g2.idxOf "S" }
    else if g2.names ≠ [] then { g2 with start := 0 }
    else g2
  let g4 := pg.terminal_rules.foldl (applyTerminalRule pg.T_to_term) g3
  pg.binary_rules.foldl (applyBinaryRule pg.T_to_term) g4

/-! ## PDA simulator (`simulate_pda` in `src/api/main.cpp`) -/

/-- One PDA transition record. -/
structure PDATransition where
  input_symbol : String := "ε"
  pop_symbol : String := "ε"
  push_symbols : List String := []
  next_state : Nat := 0
  deriving Repr, DecidableEq, Inhabited

/-- One PDA control state. -/
structure PDAState where
  name : String := ""
  accepting : Bool := false
  transitions : List PDATransition := []
  deriving Repr, DecidableEq, Inhabited

/-- A PDA. -/
structure PDA where
  states : List PDAState := []
  start : Nat := 0
  deriving Repr, DecidableEq, Inhabited

/-- One recorded simulation step (`struct PDAStep`). -/
structure PDAStep where
  op : String := "NO_OP"
  symbol : String := "ε"
  stack_after : List String := []
  current_state : String := ""
  next_state : String := ""
  deriving Repr, DecidableEq, Inhabited

/-- A configuration in the breadth-first search
(`struct SimulationState`).  The stack top is the last list element,
as in the C++ `std::vector` used with `push_back`/`back`/`pop_back`. -/
structure SimulationState where
  state_idx : Nat := 0
  input_idx : Nat := 0
  stack : List String := []
  trace : List PDAStep := []
  deriving Repr, DecidableEq, Inhabited

/-- The simulator's result (`struct PDATraceResult`). -/
structure PDATraceResult where
  ok : Bool := true
  steps : List PDAStep := []
  deriving Repr, DecidableEq, Inhabited

/-- Try one transition from a configuration: check the input match
(`ε` or the next input symbol) and the stack match (`ε` or a matching
top), then build the successor configuration and its recorded step. -/
def applyPDATransition (pda : PDA) (input : List String) (current : SimulationState)
    (trans : PDATransition) : Option SimulationState :=
  let consumes := trans.input_symbol ≠ "ε" ∧
    current.input_idx < input.length ∧
    trans.input_symbol = input.getD current.input_idx ""
  let input_match := trans.input_symbol = "ε" ∨ consumes
  let stack_match := trans.pop_symbol = "ε" ∨
    (current.stack ≠ [] ∧ current.stack.getLast? = some trans.pop_symbol)
  if input_match ∧ stack_match then
    let stack1 := if trans.pop_symbol ≠ "ε" then current.stack.dropLast else current.stack
    let stack2 := stack1 ++ trans.push_symbols.reverse
    let step : PDAStep :=
      { op := if trans.push_symbols ≠ [] then "PUSH"
              else if trans.pop_symbol ≠ "ε" then "POP" else "NO_OP"
        symbol := if consumes then input.getD current.input_idx "" else "ε"
        stack_after := stack2
        current_state := (pda.states.getD current.state_idx default).name
        next_state := (pda.states.getD trans.next_state default).name }
    some { state_idx := trans.next_state
           input_idx := current.input_idx + (if consumes then 1 else 0)
           stack := stack2
           trace := current.trace ++ [step] }
  else none

/-- The search loop of `simulate_pda`, instrumented with the number of
dequeued configurations.  The C++ guard `if (steps_count++ > max_steps)
break;` runs the body for `steps_count = 0 .. max_steps`, so `fuel`
stands for `max_steps + 1 - steps_count`: the loop breaks exactly when
`fuel` reaches `0` with a non-empty queue. -/
def simLoop (pda : PDA) (input : List String) :
    Nat → List SimulationState → Nat → List PDAStep → Nat →
    PDATraceResult × Nat
  | _, [], _, best_trace, dequeues => ({ ok := false, steps := best_trace }, dequeues)
  | 0, _ :: _, _, best_trace, dequeues => ({ ok := false, steps := best_trace }, dequeues)
  | fuel + 1, current :: rest, best_input_consumed, best_trace, dequeues =>
    let best' := if best_input_consumed < current.input_idx then
        (current.input_idx, current.trace)
      else (best_input_consumed, best_trace)
    if current.input_idx = input.length ∧
        (pda.states.getD current.state_idx default).accepting then
      ({ ok := true, steps := current.trace }, dequeues + 1)
    else
      let nexts := (pda.states.getD current.state_idx default).transitions.filterMap
        (applyPDATransition pda input current)
      simLoop pda input fuel (rest ++ nexts) best'.1 best'.2 (dequeues + 1)

/-- The per-call step cap (`size_t max_steps = 50000`). -/
def max_steps : Nat := 50000

/-- `simulate_pda`, additionally returning how many configurations were
dequeued before returning. -/
def simulate_pda_instr (pda : PDA) (input : List String) : PDATraceResult × Nat :=
  simLoop pda input (max_steps + 1) [{ state_idx := pda.start }] 0 [] 0

/-- `simulate_pda`. -/
def simulate_pda (pda : PDA) (input : List String) : PDATraceResult :=
  (simulate_pda_instr pda input).1

/-- The number of input symbols a recorded trace consumed (its steps
with a non-`ε` symbol); the input position a trace reaches. -/
def traceConsumed (steps : List PDAStep) : Nat :=
  (steps.filter fun st => st.symbol ≠ "ε").length

/-! ## Well-formedness predicates (the C++ class invariants) -/

namespace DFA

/-- The transition of state `s` on symbol `a`. -/
def trOf (D : DFA) (s : Nat) (a : String) : Option Nat :=
  lookupTr (D.states.getD s default).transitions a

/-- The accepting flag of state `s`. -/
def accOf (D : DFA) (s : Nat) : Bool :=
  (D.states.getD s default).accepting

/-- Structural bounds maintained by the `DFA` class: the start state and
every transition target index an existing state. -/
def InBounds (D : DFA) : Prop :=
  D.start_state < D.states.length ∧
  ∀ st ∈ D.states, ∀ pr ∈ st.transitions, pr.2 < D.states.length

/-- Data-model invariant (b): `accepting = positive_count > negative_count`;
established by `from_pta` and re-established by `minimize`, and never
mutated elsewhere. -/
def MajorityAcc (D : DFA) : Prop :=
  ∀ st ∈ D.states, st.accepting = decide (st.positive_count > st.negative_count)

/-- Completeness: every state has a transition on every alphabet symbol. -/
def Complete (D : DFA) : Prop :=
  ∀ st ∈ D.states, ∀ a ∈ D.alphabet, (lookupTr st.transitions a).isSome

/-- The language walk from an arbitrary state: follow transitions,
reject on a missing one.  For a complete DFA and a word over the
alphabet this agrees with the walk of `classify` started there. -/
def acceptsFrom (D : DFA) : Nat → List String → Bool
  | s, [] => accOf D s
  | s, a :: rest =>
    match trOf D s a with
    | some t => acceptsFrom D t rest
    | none => false

/-! Invariants of the refinement loop, used to prove the minimizer
correct. -/

/-- The partition is a partition of the state indices: its blocks are
non-empty and their concatenation is a permutation of `range n`. -/
def PartWF (D : DFA) (parts : List (List Nat)) : Prop :=
  parts.flatten.Perm (List.range D.states.length) ∧ ∀ b ∈ parts, b ≠ []

/-- Every block is uniform in the accepting flag. -/
def UniformAcc (D : DFA) (parts : List (List Nat)) : Prop :=
  ∀ b ∈ parts, ∀ s ∈ b, ∀ t ∈ b, accOf D s = accOf D t

/-- The partition is stable: states in a common block step into a common
block, on every alphabet symbol. -/
def Stable (D : DFA) (parts : List (List Nat)) : Prop :=
  ∀ a ∈ D.alphabet, ∀ b ∈ parts, ∀ s ∈ b, ∀ t ∈ b, ∀ u v,
    trOf D s a = some u → trOf D t a = some v →
    blockIdx parts u = blockIdx parts v

/-- Splits are justified: states in different blocks are distinguished
by some word over the alphabet. -/
def SoundParts (D : DFA) (parts : List (List Nat)) : Prop :=
  ∀ i j, i < parts.length → j < parts.length → i ≠ j →
    ∀ s ∈ parts.getD i [], ∀ t ∈ parts.getD j [],
      ∃ w, (∀ x ∈ w, x ∈ D.alphabet) ∧ acceptsFrom D s w ≠ acceptsFrom D t w

/-- The work-queue invariant: every unstable same-block pair has a queue
entry whose processing separates its successors. -/
def QueueInv (D : DFA) (parts : List (List Nat)) (queue : List (Nat × String)) : Prop :=
  ∀ a ∈ D.alphabet, ∀ j, j < parts.length →
    ∀ s ∈ parts.getD j [], ∀ t ∈ parts.getD j [], ∀ u v,
      trOf D s a = some u → trOf D t a = some v →
      blockIdx parts u ≠ blockIdx parts v →
      ∃ e ∈ queue, e.2 = a ∧ e.1 < parts.length ∧
        (u ∈ parts.getD e.1 [] ↔ v ∉ parts.getD e.1 [])

/-- The loop measure: each refinement iteration decreases it by one. -/
def phiMeasure (D : DFA) (parts : List (List Nat)) (queue : List (Nat × String)) : Nat :=
  queue.length + 2 * D.alphabet.length * (D.states.length - parts.length)

instance decInBounds (D : DFA) : Decidable (InBounds D) := by
  unfold InBounds
  exact inferInstance

instance decMajorityAcc (D : DFA) : Decidable (MajorityAcc D) := by
  unfold MajorityAcc
  exact inferInstance

instance decComplete (D : DFA) : Decidable (Complete D) := by
  unfold Complete
  exact inferInstance

end DFA

/-- Structural bounds maintained by the `GrammarDFA` methods: the three
per-state arrays have equal lengths, the start index is in bounds when
any state exists, and every transition target is in bounds. -/
def GrammarDFA.WF (g : GrammarDFA) : Prop :=
  g.trans.length = g.names.length ∧ g.accepting.length = g.names.length ∧
  (g.names ≠ [] → g.start < g.names.length) ∧
  ∀ tr ∈ g.trans, ∀ pr ∈ tr, pr.2 < g.names.length

/-- The state walk of the grammar classifier, specified independently:
the final state when every symbol has a transition. -/
def GrammarDFA.walkStates (g : GrammarDFA) : Nat → List String → Option Nat
  | cur, [] => some cur
  | cur, sym :: rest =>
    match lookupTr (g.trans.getD cur []) sym with
    | none => none
    | some t => g.walkStates t rest

/-- The first failing position of the grammar walk: the position (with
`i` symbols already consumed), current state and symbol of the first
input symbol with no transition from the current state, if any. -/
def GrammarDFA.firstFailure (g : GrammarDFA) : Nat → Nat → List String → Option (Nat × Nat × String)
  | _, _, [] => none
  | cur, i, sym :: rest =>
    match lookupTr (g.trans.getD cur []) sym with
    | none => some (i, cur, sym)
    | some t => g.firstFailure t (i + 1) rest

/-- Structural bounds for a PDA: the start state and every transition
target index an existing state. -/
def PDA.WF (pda : PDA) : Prop :=
  pda.start < pda.states.length ∧
  ∀ st ∈ pda.states, ∀ tr ∈ st.transitions, tr.next_state < pda.states.length

/-! ## Concrete instances used by witnesses and counterexamples -/

/-- The two-sample training set of scenario S1 (`tests/dfa/test_classify.cpp`). -/
def samplesS1 : List LabeledSequence :=
  [{ id := "m1", symbols := ["x"], label := true },
   { id := "b1", symbols := ["y"], label := false }]

/-- The DFA learnt from `samplesS1`. -/
def dfaS1 : DFA := (DFA.from_pta (PTA.build samplesS1)).getD default

/-- Its minimization: three states (accepting, start, sink). -/
def minS1 : DFA := dfaS1.minimize

/-- The grammar-DFA reloaded from the CNF export of `minS1`. -/
def gS1 : GrammarDFA := load_cnf_grammar (DFA.to_chomsky_lines minS1)

/-- A training set containing the empty sequence as a positive sample:
the learnt DFA has an accepting start state. -/
def samplesE0 : List LabeledSequence :=
  [{ id := "e0", symbols := [], label := true },
   { id := "b0", symbols := ["x"], label := false }]

/-- The DFA learnt from `samplesE0`. -/
def dfaE0 : DFA := (DFA.from_pta (PTA.build samplesE0)).getD default

/-- A training set whose single symbol is the literal string `"ε"`. -/
def samplesEps : List LabeledSequence :=
  [{ id := "e1", symbols := ["ε"], label := true }]

/-- The DFA learnt from `samplesEps`: its start state is non-accepting
and its alphabet is `["ε"]`. -/
def dfaEps : DFA := (DFA.from_pta (PTA.build samplesEps)).getD default

/-- A one-state PDA with a single `ε, ε → ε` self loop and no accepting
state: its search queue never empties, so the simulator runs into the
step cap. -/
def selfLoopPDA : PDA :=
  { states := [{ name := "q0", accepting := false,
                 transitions := [{ input_symbol := "ε", pop_symbol := "ε",
                                   push_symbols := [], next_state := 0 }] }]
    start := 0 }

/-- A one-state PDA that pushes on `a` and pops on `b`, accepting in its
only state; used as a witness input. -/
def pushPopPDA : PDA :=
  { states := [{ name := "q", accepting := true,
                 transitions := [{ input_symbol := "a", pop_symbol := "ε",
                                   push_symbols := ["Z"], next_state := 0 },
                                 { input_symbol := "b", pop_symbol := "Z",
                                   push_symbols := [], next_state := 0 }] }]
    start := 0 }

/-- A complete, in-bounds DFA whose accepting flag contradicts its
stored sample counts: the single state is flagged accepting but carries
no positive sample. -/
def badD : DFA :=
  { states := [{ transitions := [("a", 0)], positive_count := 0,
                 negative_count := 0, accepting := true }]
    start_state := 0
    alphabet := ["a"]
    sink_state := none }

/-- A two-state variant of `badD`: the states carry opposite accepting
flags but identical (empty) counts, so the first minimization keeps them
apart while resetting both flags, and a second minimization merges them. -/
def badD2 : DFA :=
  { states := [{ transitions := [("a", 0)], positive_count := 0,
                 negative_count := 0, accepting := true },
               { transitions := [("a", 1)], positive_count := 0,
                 negative_count := 0, accepting := false }]
    start_state := 0
    alphabet := ["a"]
    sink_state := none }


end AutomataSecurity

/-! # Theorems -/

namespace AutomataSecurity

open DFA

theorem lookupTr_setTr_self {β : Type} (l : List (String × β)) (a : String) (t : β) :
    lookupTr (setTr l a t) a = some t := by
  induction l with
  | nil => simp [setTr, lookupTr]
  | cons hd tl ih =>
    obtain ⟨b, u⟩ := hd
    by_cases hb : b = a
    · simp [setTr, lookupTr, hb]
    · simp [setTr, lookupTr, hb, ih]

theorem lookupTr_setTr_ne {β : Type} (l : List (String × β)) (a b : String) (t : β)
    (h : b ≠ a) : lookupTr (setTr l a t) b = lookupTr l b := by
  induction l with
  | nil => simp [setTr, lookupTr, Ne.symm h]
  | cons hd tl ih =>
    obtain ⟨c, u⟩ := hd
    by_cases hc : c = a
    · subst hc
      simp [setTr, lookupTr, Ne.symm h]
    · simp [setTr, lookupTr, hc, ih]

theorem lookupTr_map_snd {β γ : Type} (l : List (String × β)) (f : β → γ) (a : String) :
    lookupTr (l.map fun pr => (pr.1, f pr.2)) a = (lookupTr l a).map f := by
  induction l with
  | nil => simp [lookupTr]
  | cons hd tl ih =>
    obtain ⟨b, u⟩ := hd
    by_cases hb : b = a
    · simp [lookupTr, hb]
    · simp [lookupTr, hb, ih]

theorem mem_sortedInsert (a b : String) (l : List String) :
    b ∈ sortedInsert a l ↔ b = a ∨ b ∈ l := by
  induction l with
  | nil => simp [sortedInsert]
  | cons c rest ih =>
    by_cases h1 : strLt a c
    · simp [sortedInsert, h1]
    · by_cases h2 : a = c
      · subst h2
        simp [sortedInsert, h1]
      · simp [sortedInsert, h1, h2, ih]
        tauto

theorem indexOfStr_lt (l : List String) (a : String) (i : Nat)
    (h : indexOfStr l a = some i) : i < l.length := by
  induction l generalizing i with
  | nil => simp [indexOfStr] at h
  | cons b rest ih =>
    simp only [indexOfStr] at h
    by_cases hb : b = a
    · rw [if_pos hb] at h
      injection h with h
      subst h
      simp
    · rw [if_neg hb] at h
      cases hx : indexOfStr rest a with
      | none => rw [hx] at h; simp at h
      | some j =>
        rw [hx] at h
        have h2 : j + 1 = i := by simpa using h
        subst h2
        have := ih j hx
        simp only [List.length_cons]
        omega

theorem indexOfStr_isSome_iff (l : List String) (a : String) :
    (indexOfStr l a).isSome ↔ a ∈ l := by
  induction l with
  | nil => simp [indexOfStr]
  | cons b rest ih =>
    simp only [indexOfStr]
    by_cases hb : b = a
    · simp [hb]
    · rw [if_neg hb]
      have hab : ¬ a = b := fun h => hb h.symm
      cases hx : indexOfStr rest a with
      | none =>
        rw [hx] at ih
        simp at ih
        simp [hab, ih]
      | some j =>
        rw [hx] at ih
        simp at ih
        simp [hab, ih]

theorem blockIdx_lt (parts : List (List Nat)) (s i : Nat)
    (h : blockIdx parts s = some i) : i < parts.length := by
  induction parts generalizing i with
  | nil => simp [blockIdx] at h
  | cons b rest ih =>
    simp only [blockIdx] at h
    by_cases hb : s ∈ b
    · rw [if_pos hb] at h
      injection h with h
      subst h
      simp
    · rw [if_neg hb] at h
      cases hx : blockIdx rest s with
      | none => rw [hx] at h; simp at h
      | some j =>
        rw [hx] at h
        have h2 : j + 1 = i := by simpa using h
        subst h2
        have := ih j hx
        simp only [List.length_cons]
        omega

theorem blockIdx_mem (parts : List (List Nat)) (s i : Nat)
    (h : blockIdx parts s = some i) : s ∈ parts.getD i [] := by
  induction parts generalizing i with
  | nil => simp [blockIdx] at h
  | cons b rest ih =>
    simp only [blockIdx] at h
    by_cases hb : s ∈ b
    · rw [if_pos hb] at h
      injection h with h
      subst h
      simpa using hb
    · rw [if_neg hb] at h
      cases hx : blockIdx rest s with
      | none => rw [hx] at h; simp at h
      | some j =>
        rw [hx] at h
        have h2 : j + 1 = i := by simpa using h
        subst h2
        have := ih j hx
        simpa using this

theorem blockIdx_isSome_of_mem_flatten (parts : List (List Nat)) (s : Nat)
    (h : s ∈ parts.flatten) : (blockIdx parts s).isSome := by
  induction parts with
  | nil => simp at h
  | cons b rest ih =>
    simp only [blockIdx]
    by_cases hb : s ∈ b
    · simp [hb]
    · rw [if_neg hb]
      have hr : s ∈ rest.flatten := by
        simp at h
        rcases h with h | h
        · exact absurd h hb
        · simpa using h
      have := ih hr
      cases hx : blockIdx rest s with
      | none => rw [hx] at this; simp at this
      | some j => simp

theorem blockIdx_eq_of_nodup (parts : List (List Nat)) (s i : Nat)
    (hnd : parts.flatten.Nodup) (hi : i < parts.length) (hs : s ∈ parts.getD i []) :
    blockIdx parts s = some i := by
  induction parts generalizing i with
  | nil => simp at hi
  | cons b rest ih =>
    match i with
    | 0 =>
      simp at hs
      simp [blockIdx, hs]
    | j + 1 =>
      have hsr : s ∈ rest.getD j [] := by simpa using hs
      have hjr : j < rest.length := by simpa using hi
      have hnd' : rest.flatten.Nodup := by
        rw [List.flatten_cons, List.nodup_append] at hnd
        exact hnd.2.1
      have hsb : s ∉ b := by
        intro hmem
        have hsflat : s ∈ rest.flatten := by
          have := List.getD_eq_getElem rest [] hjr
          have hmem' : s ∈ rest[j] := by rw [← this]; exact hsr
          exact List.mem_flatten.mpr ⟨rest[j], by simp, hmem'⟩
        rw [List.flatten_cons, List.nodup_append] at hnd
        exact hnd.2.2 hmem hsflat
      simp [blockIdx, hsb, ih j hnd' hjr hsr]

theorem parts_length_le_flatten_length (parts : List (List Nat))
    (h : ∀ b ∈ parts, b ≠ []) : parts.length ≤ parts.flatten.length := by
  induction parts with
  | nil => simp
  | cons b rest ih =>
    have hb : b ≠ [] := h b (by simp)
    have h1 : 1 ≤ b.length := by
      cases b with
      | nil => exact absurd rfl hb
      | cons x xs => simp
    have := ih fun c hc => h c (by simp [hc])
    simp only [List.flatten_cons, List.length_append, List.length_cons]
    omega

/-! ### List indexing utilities -/

theorem getD_set_self {α : Type} (l : List α) (i : Nat) (x d : α) (h : i < l.length) :
    (l.set i x).getD i d = x := by
  rw [List.getD_eq_getElem?_getD, List.getElem?_set_self]
  · simp
  · exact h

theorem getD_set_ne {α : Type} (l : List α) (i j : Nat) (x d : α) (h : i ≠ j) :
    (l.set i x).getD j d = l.getD j d := by
  rw [List.getD_eq_getElem?_getD, List.getElem?_set_ne h, ← List.getD_eq_getElem?_getD]

theorem mem_flatten_of_mem_getD (parts : List (List Nat)) (j : Nat) (s : Nat)
    (hj : j < parts.length) (hs : s ∈ parts.getD j []) : s ∈ parts.flatten := by
  rw [List.getD_eq_getElem _ _ hj] at hs
  exact List.mem_flatten.mpr ⟨parts[j], by simp, hs⟩

theorem getD_mem (parts : List (List Nat)) (j : Nat) (hj : j < parts.length) :
    parts.getD j [] ∈ parts := by
  rw [List.getD_eq_getElem _ _ hj]
  simp

theorem flatten_set_append_perm (parts : List (List Nat)) :
    ∀ idx b1 b2, idx < parts.length → (b1 ++ b2).Perm (parts.getD idx []) →
      ((parts.set idx b1 ++ [b2]).flatten).Perm parts.flatten := by
  induction parts with
  | nil => intro idx b1 b2 h; simp at h
  | cons b rest ih =>
    intro idx b1 b2 hidx hperm
    match idx with
    | 0 =>
      simp only [List.getD_cons_zero] at hperm
      simp only [List.set_cons_zero, List.cons_append, List.flatten_cons]
      have h2 : (rest ++ [b2]).flatten = rest.flatten ++ b2 := by simp
      rw [h2]
      have step1 : (b1 ++ (rest.flatten ++ b2)).Perm ((b1 ++ b2) ++ rest.flatten) := by
        rw [List.append_assoc]
        exact List.Perm.append_left b1 List.perm_append_comm
      exact step1.trans (hperm.append_right rest.flatten)
    | idx + 1 =>
      simp only [List.getD_cons_succ] at hperm
      have hidx' : idx < rest.length := by simpa using hidx
      simp only [List.set_cons_succ, List.cons_append, List.flatten_cons]
      exact (ih idx b1 b2 hidx' hperm).append_left b

/-! ### Lemmas about `sweepSplit` and `splitEnqueue` -/

theorem sweepSplit_none (mark : Nat → Bool) (block : List Nat)
    (h : sweepSplit mark block = none) :
    (∀ s ∈ block, mark s = true) ∨ (∀ s ∈ block, mark s = false) := by
  simp only [sweepSplit] at h
  by_cases h1 : block.filter mark = []
  · right
    intro s hs
    have := List.filter_eq_nil_iff.mp h1 s hs
    simpa using this
  · by_cases h2 : block.filter (fun s => ! mark s) = []
    · left
      intro s hs
      have := List.filter_eq_nil_iff.mp h2 s hs
      simpa using this
    · rw [if_pos ⟨h1, h2⟩] at h
      exact absurd h (by simp)

theorem sweepSplit_some (mark : Nat → Bool) (block : List Nat)
    (sr : List Nat × List Nat) (h : sweepSplit mark block = some sr) :
    sr.1 = block.filter mark ∧ sr.2 = block.filter (fun s => ! mark s) ∧
    sr.1 ≠ [] ∧ sr.2 ≠ [] := by
  simp only [sweepSplit] at h
  by_cases hc : block.filter mark ≠ [] ∧ block.filter (fun s => ! mark s) ≠ []
  · rw [if_pos hc] at h
    injection h with h
    subst h
    exact ⟨rfl, rfl, hc.1, hc.2⟩
  · rw [if_neg hc] at h
    exact absurd h (by simp)

theorem mem_splitEnqueue (idx new_index : Nat) (alphabet : List String)
    (e : Nat × String) :
    e ∈ splitEnqueue idx new_index alphabet ↔
      e.2 ∈ alphabet ∧ (e.1 = idx ∨ e.1 = new_index) := by
  induction alphabet with
  | nil => simp [splitEnqueue]
  | cons a rest ih =>
    obtain ⟨e1, e2⟩ := e
    simp only [splitEnqueue, List.mem_cons, Prod.mk.injEq] at ih ⊢
    constructor
    · intro h
      rcases h with ⟨h1, h2⟩ | ⟨h1, h2⟩ | h
      · subst h1; subst h2; simp
      · subst h1; subst h2; simp
      · have := ih.mp h
        tauto
    · intro ⟨hsym, hidx⟩
      rcases hsym with rfl | hsym
      · rcases hidx with rfl | rfl
        · simp
        · simp
      · have : (e1, e2) ∈ splitEnqueue idx new_index rest := ih.mpr ⟨hsym, hidx⟩
        tauto

theorem splitEnqueue_length (idx new_index : Nat) (alphabet : List String) :
    (splitEnqueue idx new_index alphabet).length = 2 * alphabet.length := by
  induction alphabet with
  | nil => simp [splitEnqueue]
  | cons a rest ih =>
    simp only [splitEnqueue, List.length_cons] at ih ⊢
    omega

/-! ### Structural lemmas about `sweep` -/

theorem sweep_succ_split {alphabet : List String} {mark : Nat → Bool} {fuel idx : Nat}
    {parts : List (List Nat)} {adds : List (Nat × String)} {sr : List Nat × List Nat}
    (hidx : idx < parts.length) (hs : sweepSplit mark (parts.getD idx []) = some sr) :
    sweep alphabet mark (fuel + 1) idx parts adds =
      sweep alphabet mark fuel (idx + 1) (parts.set idx sr.1 ++ [sr.2])
        (adds ++ splitEnqueue idx parts.length alphabet) := by
  have h0 : sweep alphabet mark (fuel + 1) idx parts adds =
      (if idx < parts.length then
        match sweepSplit mark (parts.getD idx []) with
        | some sr =>
          sweep alphabet mark fuel (idx + 1) (parts.set idx sr.1 ++ [sr.2])
            (adds ++ splitEnqueue idx parts.length alphabet)
        | none => sweep alphabet mark fuel (idx + 1) parts adds
      else (parts, adds)) := rfl
  rw [h0, if_pos hidx, hs]

theorem sweep_succ_nosplit {alphabet : List String} {mark : Nat → Bool} {fuel idx : Nat}
    {parts : List (List Nat)} {adds : List (Nat × String)}
    (hidx : idx < parts.length) (hs : sweepSplit mark (parts.getD idx []) = none) :
    sweep alphabet mark (fuel + 1) idx parts adds =
      sweep alphabet mark fuel (idx + 1) parts adds := by
  have h0 : sweep alphabet mark (fuel + 1) idx parts adds =
      (if idx < parts.length then
        match sweepSplit mark (parts.getD idx []) with
        | some sr =>
          sweep alphabet mark fuel (idx + 1) (parts.set idx sr.1 ++ [sr.2])
            (adds ++ splitEnqueue idx parts.length alphabet)
        | none => sweep alphabet mark fuel (idx + 1) parts adds
      else (parts, adds)) := rfl
  rw [h0, if_pos hidx, hs]

theorem sweep_succ_exit {alphabet : List String} {mark : Nat → Bool} {fuel idx : Nat}
    {parts : List (List Nat)} {adds : List (Nat × String)}
    (hidx : ¬ idx < parts.length) :
    sweep alphabet mark (fuel + 1) idx parts adds = (parts, adds) := by
  have h0 : sweep alphabet mark (fuel + 1) idx parts adds =
      (if idx < parts.length then
        match sweepSplit mark (parts.getD idx []) with
        | some sr =>
          sweep alphabet mark fuel (idx + 1) (parts.set idx sr.1 ++ [sr.2])
            (adds ++ splitEnqueue idx parts.length alphabet)
        | none => sweep alphabet mark fuel (idx + 1) parts adds
      else (parts, adds)) := rfl
  rw [h0, if_neg hidx]

theorem sweep_adds_acc (alphabet : List String) (mark : Nat → Bool) :
    ∀ fuel idx parts adds,
      sweep alphabet mark fuel idx parts adds =
        ((sweep alphabet mark fuel idx parts []).1,
          adds ++ (sweep alphabet mark fuel idx parts []).2) := by
  intro fuel
  induction fuel with
  | zero => intro idx parts adds; simp [sweep]
  | succ fuel ih =>
    intro idx parts adds
    by_cases hidx : idx < parts.length
    · cases hs : sweepSplit mark (parts.getD idx []) with
      | some sr =>
        rw [sweep_succ_split hidx hs, sweep_succ_split hidx hs,
            ih (idx + 1) (parts.set idx sr.1 ++ [sr.2])
              (adds ++ splitEnqueue idx parts.length alphabet),
            ih (idx + 1) (parts.set idx sr.1 ++ [sr.2])
              ([] ++ splitEnqueue idx parts.length alphabet)]
        simp
      | none =>
        rw [sweep_succ_nosplit hidx hs, sweep_succ_nosplit hidx hs,
            ih (idx + 1) parts adds, ih (idx + 1) parts []]
    · rw [sweep_succ_exit hidx, sweep_succ_exit hidx]
      simp

theorem sweep_getD_lt (alphabet : List String) (mark : Nat → Bool) :
    ∀ fuel idx parts adds j, j < idx →
      (sweep alphabet mark fuel idx parts adds).1.getD j [] = parts.getD j [] := by
  intro fuel
  induction fuel with
  | zero => intro idx parts adds j hj; simp [sweep]
  | succ fuel ih =>
    intro idx parts adds j hj
    by_cases hidx : idx < parts.length
    · cases hs : sweepSplit mark (parts.getD idx []) with
      | some sr =>
        rw [sweep_succ_split hidx hs]
        rw [ih (idx + 1) _ _ j (by omega)]
        rw [List.getD_append _ _ _ _ (by rw [List.length_set]; omega)]
        exact getD_set_ne _ _ _ _ _ (by omega)
      | none =>
        rw [sweep_succ_nosplit hidx hs]
        exact ih (idx + 1) parts adds j (by omega)
    · rw [sweep_succ_exit hidx]

theorem sweep_length_le (alphabet : List String) (mark : Nat → Bool) :
    ∀ fuel idx parts adds,
      parts.length ≤ (sweep alphabet mark fuel idx parts adds).1.length := by
  intro fuel
  induction fuel with
  | zero => intro idx parts adds; simp [sweep]
  | succ fuel ih =>
    intro idx parts adds
    by_cases hidx : idx < parts.length
    · cases hs : sweepSplit mark (parts.getD idx []) with
      | some sr =>
        rw [sweep_succ_split hidx hs]
        have := ih (idx + 1) (parts.set idx sr.1 ++ [sr.2])
          (adds ++ splitEnqueue idx parts.length alphabet)
        simp at this
        omega
      | none =>
        rw [sweep_succ_nosplit hidx hs]
        exact ih (idx + 1) parts adds
    · rw [sweep_succ_exit hidx]

theorem sweep_flatten_perm (alphabet : List String) (mark : Nat → Bool) :
    ∀ fuel idx parts adds,
      (sweep alphabet mark fuel idx parts adds).1.flatten.Perm parts.flatten := by
  intro fuel
  induction fuel with
  | zero => intro idx parts adds; simp [sweep]
  | succ fuel ih =>
    intro idx parts adds
    by_cases hidx : idx < parts.length
    · cases hs : sweepSplit mark (parts.getD idx []) with
      | some sr =>
        rw [sweep_succ_split hidx hs]
        obtain ⟨h1, h2, _, _⟩ := sweepSplit_some mark _ sr hs
        have hsplit : (sr.1 ++ sr.2).Perm (parts.getD idx []) := by
          rw [h1, h2]
          exact List.filter_append_perm mark _
        have hperm := flatten_set_append_perm parts idx sr.1 sr.2 hidx hsplit
        exact (ih (idx + 1) _ _).trans hperm
      | none =>
        rw [sweep_succ_nosplit hidx hs]
        exact ih (idx + 1) parts adds
    · rw [sweep_succ_exit hidx]

theorem sweep_blocks_nonempty (alphabet : List String) (mark : Nat → Bool) :
    ∀ fuel idx parts adds, (∀ b ∈ parts, b ≠ []) →
      ∀ b ∈ (sweep alphabet mark fuel idx parts adds).1, b ≠ [] := by
  intro fuel
  induction fuel with
  | zero => intro idx parts adds h; simpa [sweep] using h
  | succ fuel ih =>
    intro idx parts adds h
    by_cases hidx : idx < parts.length
    · cases hs : sweepSplit mark (parts.getD idx []) with
      | some sr =>
        rw [sweep_succ_split hidx hs]
        obtain ⟨_, _, hne1, hne2⟩ := sweepSplit_some mark _ sr hs
        refine ih (idx + 1) _ _ ?_
        intro b hb
        rcases List.mem_append.mp hb with hb | hb
        · rcases List.mem_or_eq_of_mem_set hb with hb | hb
          · exact h b hb
          · subst hb; exact hne1
        · simp at hb
          subst hb; exact hne2
      | none =>
        rw [sweep_succ_nosplit hidx hs]
        exact ih (idx + 1) parts adds h
    · rw [sweep_succ_exit hidx]
      exact h

theorem sweep_block_subset (alphabet : List String) (mark : Nat → Bool) :
    ∀ fuel idx parts adds j, j < (sweep alphabet mark fuel idx parts adds).1.length →
      ∃ j0, j0 < parts.length ∧
        (sweep alphabet mark fuel idx parts adds).1.getD j [] ⊆ parts.getD j0 [] := by
  intro fuel
  induction fuel with
  | zero =>
    intro idx parts adds j hj
    simp only [sweep] at hj ⊢
    exact ⟨j, hj, fun x hx => hx⟩
  | succ fuel ih =>
    intro idx parts adds j hj
    by_cases hidx : idx < parts.length
    · cases hs : sweepSplit mark (parts.getD idx []) with
      | some sr =>
        rw [sweep_succ_split hidx hs] at hj ⊢
        obtain ⟨hf1, hf2, _, _⟩ := sweepSplit_some mark _ sr hs
        obtain ⟨j0, hj0, hsub⟩ := ih (idx + 1) (parts.set idx sr.1 ++ [sr.2])
          (adds ++ splitEnqueue idx parts.length alphabet) j hj
        simp only [List.length_append, List.length_set, List.length_cons,
          List.length_nil] at hj0
        by_cases hj0p : j0 < parts.length
        · by_cases hj0i : j0 = idx
          · subst hj0i
            refine ⟨j0, hj0p, fun x hx => ?_⟩
            have hmid : (parts.set j0 sr.1 ++ [sr.2]).getD j0 [] = sr.1 := by
              rw [List.getD_append _ _ _ _ (by rw [List.length_set]; omega)]
              exact getD_set_self _ _ _ _ hj0p
            have := hsub hx
            rw [hmid] at this
            rw [hf1] at this
            exact List.mem_of_mem_filter this
          · refine ⟨j0, hj0p, fun x hx => ?_⟩
            have hmid : (parts.set idx sr.1 ++ [sr.2]).getD j0 [] = parts.getD j0 [] := by
              rw [List.getD_append _ _ _ _ (by rw [List.length_set]; omega)]
              exact getD_set_ne _ _ _ _ _ (fun h => hj0i h.symm)
            have := hsub hx
            rw [hmid] at this
            exact this
        · have hj0e : j0 = parts.length := by omega
          refine ⟨idx, hidx, fun x hx => ?_⟩
          have hmid : (parts.set idx sr.1 ++ [sr.2]).getD j0 [] = sr.2 := by
            rw [List.getD_append_right _ _ _ _ (by rw [List.length_set]; omega)]
            rw [List.length_set, hj0e]
            simp
          have := hsub hx
          rw [hmid] at this
          rw [hf2] at this
          exact List.mem_of_mem_filter this
      | none =>
        rw [sweep_succ_nosplit hidx hs] at hj ⊢
        exact ih (idx + 1) parts adds j hj
    · rw [sweep_succ_exit hidx] at hj ⊢
      exact ⟨j, hj, fun x hx => hx⟩

theorem sweep_pure (alphabet : List String) (mark : Nat → Bool) :
    ∀ fuel idx parts adds, (∀ b ∈ parts, b ≠ []) →
      parts.flatten.length ≤ idx + fuel →
      ∀ j, idx ≤ j → j < (sweep alphabet mark fuel idx parts adds).1.length →
        (∀ s ∈ (sweep alphabet mark fuel idx parts adds).1.getD j [], mark s = true) ∨
        (∀ s ∈ (sweep alphabet mark fuel idx parts adds).1.getD j [], mark s = false) := by
  intro fuel
  induction fuel with
  | zero =>
    intro idx parts adds hne hflat j hij hj
    exfalso
    have hj2 : j < parts.length := by simpa [sweep] using hj
    have := parts_length_le_flatten_length parts hne
    omega
  | succ fuel ih =>
    intro idx parts adds hne hflat j hij hj
    by_cases hidx : idx < parts.length
    · cases hs : sweepSplit mark (parts.getD idx []) with
      | some sr =>
        rw [sweep_succ_split hidx hs] at hj ⊢
        obtain ⟨hf1, hf2, _, _⟩ := sweepSplit_some mark _ sr hs
        have hmidne : ∀ b ∈ (parts.set idx sr.1 ++ [sr.2]), b ≠ [] := by
          intro b hb
          rcases List.mem_append.mp hb with hb | hb
          · rcases List.mem_or_eq_of_mem_set hb with hb | hb
            · exact hne b hb
            · subst hb
              exact (sweepSplit_some mark _ sr hs).2.2.1
          · simp at hb
            subst hb
            exact (sweepSplit_some mark _ sr hs).2.2.2
        have hmidflat : (parts.set idx sr.1 ++ [sr.2]).flatten.length ≤ (idx + 1) + fuel := by
          have hperm : (sr.1 ++ sr.2).Perm (parts.getD idx []) := by
            rw [hf1, hf2]
            exact List.filter_append_perm mark _
          have := (flatten_set_append_perm parts idx sr.1 sr.2 hidx hperm).length_eq
          omega
        by_cases hji : idx = j
        · subst hji
          have hfinal : (sweep alphabet mark fuel (idx + 1) (parts.set idx sr.1 ++ [sr.2])
              (adds ++ splitEnqueue idx parts.length alphabet)).1.getD idx [] = sr.1 := by
            rw [sweep_getD_lt _ _ _ _ _ _ idx (by omega)]
            rw [List.getD_append _ _ _ _ (by rw [List.length_set]; omega)]
            exact getD_set_self _ _ _ _ hidx
          left
          intro s hsmem
          rw [hfinal, hf1] at hsmem
          exact (List.mem_filter.mp hsmem).2
        · exact ih (idx + 1) _ _ hmidne hmidflat j (by omega) hj
      | none =>
        rw [sweep_succ_nosplit hidx hs] at hj ⊢
        by_cases hji : idx = j
        · subst hji
          have hfinal : (sweep alphabet mark fuel (idx + 1) parts adds).1.getD idx [] =
              parts.getD idx [] :=
            sweep_getD_lt _ _ _ _ _ _ idx (by omega)
          rw [hfinal]
          exact sweepSplit_none mark _ hs
        · exact ih (idx + 1) parts adds hne (by omega) j (by omega) hj
    · rw [sweep_succ_exit hidx] at hj
      exfalso
      have hj2 : j < parts.length := by simpa using hj
      omega

theorem sweep_same_block (alphabet : List String) (mark : Nat → Bool) :
    ∀ fuel idx parts adds j, j < parts.length →
      ∀ s t, s ∈ parts.getD j [] → t ∈ parts.getD j [] →
      (j < idx ∨ mark s = mark t) →
      ∃ j2, j2 < (sweep alphabet mark fuel idx parts adds).1.length ∧
        s ∈ (sweep alphabet mark fuel idx parts adds).1.getD j2 [] ∧
        t ∈ (sweep alphabet mark fuel idx parts adds).1.getD j2 [] := by
  intro fuel
  induction fuel with
  | zero =>
    intro idx parts adds j hj s t hsm htm _
    simp only [sweep]
    exact ⟨j, hj, hsm, htm⟩
  | succ fuel ih =>
    intro idx parts adds j hj s t hsm htm hcond
    by_cases hidx : idx < parts.length
    · cases hs : sweepSplit mark (parts.getD idx []) with
      | some sr =>
        rw [sweep_succ_split hidx hs]
        obtain ⟨hf1, hf2, _, _⟩ := sweepSplit_some mark _ sr hs
        by_cases hji : j = idx
        · rw [hji] at hsm htm
          have hmm : mark s = mark t := by
            rcases hcond with hcond | hcond
            · omega
            · exact hcond
          have hgetsub : (parts.set idx sr.1 ++ [sr.2]).getD idx [] = sr.1 := by
            rw [List.getD_append _ _ _ _ (by rw [List.length_set]; omega)]
            exact getD_set_self _ _ _ _ hidx
          have hgetrem : (parts.set idx sr.1 ++ [sr.2]).getD parts.length [] = sr.2 := by
            rw [List.getD_append_right _ _ _ _ (by rw [List.length_set])]
            rw [List.length_set]
            simp
          cases hmk : mark s with
          | true =>
            refine ih (idx + 1) _ _ idx
              (by simp only [List.length_append, List.length_set, List.length_cons,
                List.length_nil]; try omega)
              s t ?_ ?_ (Or.inl (by omega))
            · rw [hgetsub, hf1]
              exact List.mem_filter.mpr ⟨hsm, hmk⟩
            · rw [hgetsub, hf1]
              exact List.mem_filter.mpr ⟨htm, by rw [← hmm]; exact hmk⟩
          | false =>
            refine ih (idx + 1) _ _ parts.length
              (by simp only [List.length_append, List.length_set, List.length_cons,
                List.length_nil]; try omega)
              s t ?_ ?_ (Or.inr hmm)
            · rw [hgetrem, hf2]
              exact List.mem_filter.mpr ⟨hsm, by simp [hmk]⟩
            · rw [hgetrem, hf2]
              exact List.mem_filter.mpr ⟨htm, by simp [← hmm, hmk]⟩
        · have hcond' : j < idx + 1 ∨ mark s = mark t := by
            rcases hcond with hcond | hcond
            · omega
            · exact Or.inr hcond
          refine ih (idx + 1) _ _ j (by rw [List.length_append, List.length_set]; omega)
            s t ?_ ?_ hcond'
          · rw [List.getD_append _ _ _ _ (by rw [List.length_set]; omega),
              getD_set_ne _ _ _ _ _ (fun h => hji h.symm)]
            exact hsm
          · rw [List.getD_append _ _ _ _ (by rw [List.length_set]; omega),
              getD_set_ne _ _ _ _ _ (fun h => hji h.symm)]
            exact htm
      | none =>
        rw [sweep_succ_nosplit hidx hs]
        have hcond' : j < idx + 1 ∨ mark s = mark t := by
          rcases hcond with hcond | hcond
          · omega
          · exact Or.inr hcond
        exact ih (idx + 1) parts adds j hj s t hsm htm hcond'
    · rw [sweep_succ_exit hidx]
      exact ⟨j, hj, hsm, htm⟩

theorem sweep_enqueued (alphabet : List String) (mark : Nat → Bool) :
    ∀ fuel idx parts adds j, j < (sweep alphabet mark fuel idx parts adds).1.length →
      (j < parts.length ∧
        (sweep alphabet mark fuel idx parts adds).1.getD j [] = parts.getD j []) ∨
      (∀ c ∈ alphabet, (j, c) ∈ (sweep alphabet mark fuel idx parts adds).2) := by
  intro fuel
  induction fuel with
  | zero =>
    intro idx parts adds j hj
    left
    refine ⟨by simpa [sweep] using hj, rfl⟩
  | succ fuel ih =>
    intro idx parts adds j hj
    by_cases hidx : idx < parts.length
    · cases hs : sweepSplit mark (parts.getD idx []) with
      | some sr =>
        rw [sweep_succ_split hidx hs] at hj ⊢
        have henq : ∀ c ∈ alphabet, ∀ i, (i = idx ∨ i = parts.length) →
            (i, c) ∈ (sweep alphabet mark fuel (idx + 1) (parts.set idx sr.1 ++ [sr.2])
              (adds ++ splitEnqueue idx parts.length alphabet)).2 := by
          intro c hc i hi
          rw [sweep_adds_acc]
          refine List.mem_append.mpr (Or.inl (List.mem_append.mpr (Or.inr ?_)))
          exact (mem_splitEnqueue idx parts.length alphabet (i, c)).mpr ⟨hc, hi⟩
        rcases ih (idx + 1) (parts.set idx sr.1 ++ [sr.2])
            (adds ++ splitEnqueue idx parts.length alphabet) j hj with ⟨hjm, heq⟩ | hq
        · simp only [List.length_append, List.length_set, List.length_cons,
            List.length_nil] at hjm
          by_cases hji : j = idx
          · subst hji
            exact Or.inr fun c hc => henq c hc j (Or.inl rfl)
          · by_cases hjp : j < parts.length
            · refine Or.inl ⟨hjp, ?_⟩
              rw [heq]
              rw [List.getD_append _ _ _ _ (by rw [List.length_set]; omega)]
              exact getD_set_ne _ _ _ _ _ (fun h => hji h.symm)
            · have : j = parts.length := by omega
              subst this
              exact Or.inr fun c hc => henq c hc _ (Or.inr rfl)
        · exact Or.inr hq
      | none =>
        rw [sweep_succ_nosplit hidx hs] at hj ⊢
        exact ih (idx + 1) parts adds j hj
    · rw [sweep_succ_exit hidx] at hj ⊢
      exact Or.inl ⟨hj, rfl⟩

theorem sweep_adds_spec (alphabet : List String) (mark : Nat → Bool) :
    ∀ fuel idx parts adds e, e ∈ (sweep alphabet mark fuel idx parts adds).2 →
      e ∈ adds ∨ (e.2 ∈ alphabet ∧
        e.1 < (sweep alphabet mark fuel idx parts adds).1.length) := by
  intro fuel
  induction fuel with
  | zero =>
    intro idx parts adds e he
    simp only [sweep] at he
    exact Or.inl he
  | succ fuel ih =>
    intro idx parts adds e he
    by_cases hidx : idx < parts.length
    · cases hs : sweepSplit mark (parts.getD idx []) with
      | some sr =>
        rw [sweep_succ_split hidx hs] at he ⊢
        rcases ih (idx + 1) _ _ e he with hin | hok
        · rcases List.mem_append.mp hin with hin | hin
          · exact Or.inl hin
          · right
            have := (mem_splitEnqueue idx parts.length alphabet e).mp hin
            refine ⟨this.1, ?_⟩
            have hlen := sweep_length_le alphabet mark fuel (idx + 1)
              (parts.set idx sr.1 ++ [sr.2]) (adds ++ splitEnqueue idx parts.length alphabet)
            simp only [List.length_append, List.length_set, List.length_cons,
              List.length_nil] at hlen
            rcases this.2 with h | h <;> omega
        · exact Or.inr hok
      | none =>
        rw [sweep_succ_nosplit hidx hs] at he ⊢
        exact ih (idx + 1) parts adds e he
    · rw [sweep_succ_exit hidx] at he
      exact Or.inl he

theorem sweep_adds_length (alphabet : List String) (mark : Nat → Bool) :
    ∀ fuel idx parts adds,
      (sweep alphabet mark fuel idx parts adds).2.length +
        2 * alphabet.length * parts.length =
      adds.length + 2 * alphabet.length *
        (sweep alphabet mark fuel idx parts adds).1.length := by
  intro fuel
  induction fuel with
  | zero => intro idx parts adds; simp [sweep]
  | succ fuel ih =>
    intro idx parts adds
    by_cases hidx : idx < parts.length
    · cases hs : sweepSplit mark (parts.getD idx []) with
      | some sr =>
        rw [sweep_succ_split hidx hs]
        have := ih (idx + 1) (parts.set idx sr.1 ++ [sr.2])
          (adds ++ splitEnqueue idx parts.length alphabet)
        simp only [List.length_append, List.length_set, List.length_cons,
          List.length_nil, Nat.zero_add, splitEnqueue_length] at this
        have h2 : 2 * alphabet.length * (parts.length + 1) =
            2 * alphabet.length * parts.length + 2 * alphabet.length := by ring
        omega
      | none =>
        rw [sweep_succ_nosplit hidx hs]
        exact ih (idx + 1) parts adds
    · rw [sweep_succ_exit hidx]

/-! ### Transition and partition helpers -/

theorem lookupTr_mem {β : Type} (l : List (String × β)) (a : String) (u : β)
    (h : lookupTr l a = some u) : (a, u) ∈ l := by
  induction l with
  | nil => simp [lookupTr] at h
  | cons hd tl ih =>
    obtain ⟨b, v⟩ := hd
    simp only [lookupTr] at h
    by_cases hb : b = a
    · rw [if_pos hb] at h
      injection h with h
      subst hb
      subst h
      simp
    · rw [if_neg hb] at h
      simp [ih h]

theorem getD_mem_states (D : DFA) (s : Nat) (hs : s < D.states.length) :
    D.states.getD s default ∈ D.states := by
  rw [List.getD_eq_getElem _ _ hs]
  simp

theorem trOf_lt (D : DFA) (hib : D.InBounds) (s u : Nat) (a : String)
    (h : trOf D s a = some u) : u < D.states.length := by
  by_cases hs : s < D.states.length
  · have hmem := lookupTr_mem _ _ _ h
    exact hib.2 _ (getD_mem_states D s hs) _ hmem
  · rw [trOf, List.getD_eq_default _ _ (by omega)] at h
    simp [default] at h
    exact absurd h (by simp [lookupTr])

theorem trOf_isSome (D : DFA) (hcomp : D.Complete) (s : Nat)
    (hs : s < D.states.length) (a : String) (ha : a ∈ D.alphabet) :
    (trOf D s a).isSome :=
  hcomp _ (getD_mem_states D s hs) a ha

theorem involved_iff (D : DFA) (parts : List (List Nat)) (p : Nat) (a : String) (s : Nat) :
    involved D parts p a s = true ↔
      ∃ u, trOf D s a = some u ∧ blockIdx parts u = some p := by
  rw [involved]
  cases h : lookupTr (D.states.getD s default).transitions a with
  | none =>
    simp only []
    constructor
    · intro hf; exact absurd hf (by simp)
    · intro ⟨u, hu, _⟩
      rw [trOf] at hu
      rw [h] at hu
      exact absurd hu (by simp)
  | some t =>
    simp only [decide_eq_true_eq]
    constructor
    · intro ht
      exact ⟨t, by rw [trOf, h], ht⟩
    · intro ⟨u, hu, hbu⟩
      rw [trOf, h] at hu
      injection hu with hu
      subst hu
      exact hbu

theorem PartWF_nodup (D : DFA) (parts : List (List Nat)) (h : DFA.PartWF D parts) :
    parts.flatten.Nodup :=
  h.1.nodup_iff.mpr (List.nodup_range _)

theorem PartWF_mem_flatten_iff (D : DFA) (parts : List (List Nat))
    (h : DFA.PartWF D parts) (s : Nat) :
    s ∈ parts.flatten ↔ s < D.states.length := by
  rw [h.1.mem_iff, List.mem_range]

theorem PartWF_length_le (D : DFA) (parts : List (List Nat)) (h : DFA.PartWF D parts) :
    parts.length ≤ D.states.length := by
  have h1 := parts_length_le_flatten_length parts h.2
  have h2 := h.1.length_eq
  rw [List.length_range] at h2
  omega

theorem PartWF_blockIdx (D : DFA) (parts : List (List Nat)) (h : DFA.PartWF D parts)
    (u : Nat) (hu : u < D.states.length) :
    ∃ iu, blockIdx parts u = some iu ∧ iu < parts.length ∧ u ∈ parts.getD iu [] := by
  have hmem : u ∈ parts.flatten := (PartWF_mem_flatten_iff D parts h u).mpr hu
  have hsome := blockIdx_isSome_of_mem_flatten parts u hmem
  cases hx : blockIdx parts u with
  | none => rw [hx] at hsome; simp at hsome
  | some iu => exact ⟨iu, rfl, blockIdx_lt parts u iu hx, blockIdx_mem parts u iu hx⟩

theorem PartWF_blockIdx_eq (D : DFA) (parts : List (List Nat)) (h : DFA.PartWF D parts)
    (u j : Nat) (hj : j < parts.length) (hu : u ∈ parts.getD j []) :
    blockIdx parts u = some j :=
  blockIdx_eq_of_nodup parts u j (PartWF_nodup D parts h) hj hu

theorem PartWF_lt_of_mem (D : DFA) (parts : List (List Nat)) (h : DFA.PartWF D parts)
    (u j : Nat) (hj : j < parts.length) (hu : u ∈ parts.getD j []) :
    u < D.states.length :=
  (PartWF_mem_flatten_iff D parts h u).mp (mem_flatten_of_mem_getD parts j u hj hu)

theorem mem_parts_index (parts : List (List Nat)) (b : List Nat) (hb : b ∈ parts) :
    ∃ j, j < parts.length ∧ parts.getD j [] = b := by
  obtain ⟨j, hj, hget⟩ := List.mem_iff_getElem.mp hb
  exact ⟨j, hj, by rw [List.getD_eq_getElem _ _ hj]; exact hget⟩

theorem acceptsFrom_nil (D : DFA) (s : Nat) :
    DFA.acceptsFrom D s [] = DFA.accOf D s := rfl

theorem acceptsFrom_cons (D : DFA) (s : Nat) (a : String) (w : List String) (u : Nat)
    (h : DFA.trOf D s a = some u) :
    DFA.acceptsFrom D s (a :: w) = DFA.acceptsFrom D u w := by
  rw [DFA.acceptsFrom, h]

/-! ### One iteration of the refinement loop -/

theorem refine_zero (D : DFA) (parts : List (List Nat)) (queue : List (Nat × String)) :
    refine D 0 parts queue = parts := rfl

theorem refine_succ_nil (D : DFA) (fuel : Nat) (parts : List (List Nat)) :
    refine D (fuel + 1) parts [] = parts := rfl

theorem refine_succ_cons (D : DFA) (fuel : Nat) (parts : List (List Nat))
    (p : Nat) (a0 : String) (rest : List (Nat × String)) :
    refine D (fuel + 1) parts ((p, a0) :: rest) =
      refine D fuel
        (sweep D.alphabet (involved D parts p a0) D.states.length 0 parts []).1
        (rest ++ (sweep D.alphabet (involved D parts p a0) D.states.length 0 parts []).2) :=
  rfl

theorem stepPartWF (D : DFA) (parts : List (List Nat)) (mark : Nat → Bool)
    (h : DFA.PartWF D parts) :
    DFA.PartWF D (sweep D.alphabet mark D.states.length 0 parts []).1 :=
  ⟨(sweep_flatten_perm D.alphabet mark D.states.length 0 parts []).trans h.1,
   sweep_blocks_nonempty D.alphabet mark D.states.length 0 parts [] h.2⟩

theorem step_same_block_src (D : DFA) (parts : List (List Nat)) (mark : Nat → Bool)
    (h : DFA.PartWF D parts) (j' : Nat)
    (hj' : j' < (sweep D.alphabet mark D.states.length 0 parts []).1.length)
    (s t : Nat) (hs : s ∈ (sweep D.alphabet mark D.states.length 0 parts []).1.getD j' [])
    (ht : t ∈ (sweep D.alphabet mark D.states.length 0 parts []).1.getD j' []) :
    ∃ j0, j0 < parts.length ∧ s ∈ parts.getD j0 [] ∧ t ∈ parts.getD j0 [] ∧
      mark s = mark t := by
  obtain ⟨j0, hj0, hsub⟩ :=
    sweep_block_subset D.alphabet mark D.states.length 0 parts [] j' hj'
  have hflat : parts.flatten.length ≤ 0 + D.states.length := by
    have := h.1.length_eq
    rw [List.length_range] at this
    omega
  have hpure := sweep_pure D.alphabet mark D.states.length 0 parts [] h.2 hflat j'
    (Nat.zero_le j') hj'
  refine ⟨j0, hj0, hsub hs, hsub ht, ?_⟩
  rcases hpure with hp | hp
  · rw [hp s hs, hp t ht]
  · rw [hp s hs, hp t ht]

theorem stepUniform (D : DFA) (parts : List (List Nat)) (mark : Nat → Bool)
    (_h : DFA.PartWF D parts) (hu : DFA.UniformAcc D parts) :
    DFA.UniformAcc D (sweep D.alphabet mark D.states.length 0 parts []).1 := by
  intro b hb s hs t ht
  obtain ⟨j', hj', hget⟩ := mem_parts_index _ b hb
  obtain ⟨j0, hj0, hsub⟩ :=
    sweep_block_subset D.alphabet mark D.states.length 0 parts [] j' hj'
  rw [hget] at hsub
  exact hu (parts.getD j0 []) (getD_mem parts j0 hj0) s (hsub hs) t (hsub ht)

theorem mark_true_iff (D : DFA) (parts : List (List Nat)) (p : Nat) (a0 : String)
    (s u : Nat) (hu : DFA.trOf D s a0 = some u) :
    involved D parts p a0 s = true ↔ blockIdx parts u = some p := by
  rw [involved_iff]
  constructor
  · intro ⟨u', hu', hb⟩
    rw [hu] at hu'
    injection hu' with hu'
    subst hu'
    exact hb
  · intro hb
    exact ⟨u, hu, hb⟩

theorem sound_of_marks (D : DFA) (parts : List (List Nat)) (p : Nat) (a0 : String)
    (hib : D.InBounds) (hcomp : D.Complete) (ha0 : a0 ∈ D.alphabet)
    (h : DFA.PartWF D parts) (hsound : DFA.SoundParts D parts)
    (s t : Nat) (_hsn : s < D.states.length) (htn : t < D.states.length)
    (hms : involved D parts p a0 s = true) (hmt : involved D parts p a0 t = false) :
    ∃ w, (∀ x ∈ w, x ∈ D.alphabet) ∧
      DFA.acceptsFrom D s w ≠ DFA.acceptsFrom D t w := by
  obtain ⟨u, hu, hbu⟩ := (involved_iff D parts p a0 s).mp hms
  have hvs := trOf_isSome D hcomp t htn a0 ha0
  cases hv : DFA.trOf D t a0 with
  | none => rw [hv] at hvs; simp at hvs
  | some v =>
    have hbv_ne : blockIdx parts v ≠ some p := by
      intro hbv
      have : involved D parts p a0 t = true := (mark_true_iff D parts p a0 t v hv).mpr hbv
      rw [hmt] at this
      exact absurd this (by simp)
    have hun : u < D.states.length := trOf_lt D hib s u a0 hu
    have hvn : v < D.states.length := trOf_lt D hib t v a0 hv
    obtain ⟨q, hbv, hqlen, hvmem⟩ := PartWF_blockIdx D parts h v hvn
    have hplen : p < parts.length := blockIdx_lt parts u p hbu
    have humem : u ∈ parts.getD p [] := blockIdx_mem parts u p hbu
    have hpq : p ≠ q := by
      intro heq
      rw [← heq] at hbv
      exact hbv_ne hbv
    obtain ⟨w, hw, hne⟩ := hsound p q hplen hqlen hpq u humem v hvmem
    refine ⟨a0 :: w, ?_, ?_⟩
    · intro x hx
      rcases List.mem_cons.mp hx with rfl | hx
      · exact ha0
      · exact hw x hx
    · rw [acceptsFrom_cons D s a0 w u hu, acceptsFrom_cons D t a0 w v hv]
      exact hne

theorem stepSound (D : DFA) (parts : List (List Nat)) (p : Nat) (a0 : String)
    (hib : D.InBounds) (hcomp : D.Complete) (ha0 : a0 ∈ D.alphabet)
    (h : DFA.PartWF D parts) (hsound : DFA.SoundParts D parts) :
    DFA.SoundParts D
      (sweep D.alphabet (involved D parts p a0) D.states.length 0 parts []).1 := by
  intro i j hi hj hij s hsi t htj
  have hwf' := stepPartWF D parts (involved D parts p a0) h
  have hsn : s < D.states.length := PartWF_lt_of_mem D _ hwf' s i hi hsi
  have htn : t < D.states.length := PartWF_lt_of_mem D _ hwf' t j hj htj
  obtain ⟨i0, hbi0, hi0len, hsmem0⟩ := PartWF_blockIdx D parts h s hsn
  obtain ⟨j0, hbj0, hj0len, htmem0⟩ := PartWF_blockIdx D parts h t htn
  by_cases h00 : i0 = j0
  · subst h00
    have hmne : involved D parts p a0 s ≠ involved D parts p a0 t := by
      intro hmeq
      obtain ⟨j2, hj2, hs2, ht2⟩ := sweep_same_block D.alphabet (involved D parts p a0)
        D.states.length 0 parts [] i0 hi0len s t hsmem0 htmem0 (Or.inr hmeq)
      have hbs := PartWF_blockIdx_eq D _ hwf' s i hi hsi
      have hbs2 := PartWF_blockIdx_eq D _ hwf' s j2 hj2 hs2
      have hbt := PartWF_blockIdx_eq D _ hwf' t j hj htj
      have hbt2 := PartWF_blockIdx_eq D _ hwf' t j2 hj2 ht2
      rw [hbs] at hbs2
      rw [hbt] at hbt2
      injection hbs2 with hbs2
      injection hbt2 with hbt2
      exact hij (by omega)
    cases hmks : involved D parts p a0 s with
    | true =>
      have hmkt : involved D parts p a0 t = false := by
        cases hmkt : involved D parts p a0 t with
        | true => rw [hmks, hmkt] at hmne; exact absurd rfl hmne
        | false => rfl
      exact sound_of_marks D parts p a0 hib hcomp ha0 h hsound s t hsn htn hmks hmkt
    | false =>
      have hmkt : involved D parts p a0 t = true := by
        cases hmkt : involved D parts p a0 t with
        | true => rfl
        | false => rw [hmks, hmkt] at hmne; exact absurd rfl hmne
      obtain ⟨w, hw, hne⟩ :=
        sound_of_marks D parts p a0 hib hcomp ha0 h hsound t s htn hsn hmkt hmks
      exact ⟨w, hw, hne.symm⟩
  · obtain ⟨w, hw, hne⟩ := hsound i0 j0 hi0len hj0len h00 s hsmem0 t htmem0
    exact ⟨w, hw, hne⟩

theorem stepQueueInv (D : DFA) (parts : List (List Nat)) (p : Nat) (a0 : String)
    (rest : List (Nat × String)) (hib : D.InBounds) (h : DFA.PartWF D parts)
    (hq : DFA.QueueInv D parts ((p, a0) :: rest)) :
    DFA.QueueInv D
      (sweep D.alphabet (involved D parts p a0) D.states.length 0 parts []).1
      (rest ++ (sweep D.alphabet (involved D parts p a0) D.states.length 0 parts []).2) := by
  intro a ha j' hj' s hs t ht u v hu hv hbne
  have hwf' := stepPartWF D parts (involved D parts p a0) h
  have hsn := PartWF_lt_of_mem D _ hwf' s j' hj' hs
  have htn := PartWF_lt_of_mem D _ hwf' t j' hj' ht
  have hun := trOf_lt D hib s u a hu
  have hvn := trOf_lt D hib t v a hv
  obtain ⟨iu', hbu', hiu'len, humem'⟩ := PartWF_blockIdx D _ hwf' u hun
  obtain ⟨iv', hbv', hiv'len, hvmem'⟩ := PartWF_blockIdx D _ hwf' v hvn
  have hne' : iu' ≠ iv' := by
    intro heq
    rw [hbu', hbv', heq] at hbne
    exact hbne rfl
  obtain ⟨iu, hbu, hiulen, humem⟩ := PartWF_blockIdx D parts h u hun
  obtain ⟨iv, hbv, hivlen, hvmem⟩ := PartWF_blockIdx D parts h v hvn
  have hvnotu' : v ∉
      (sweep D.alphabet (involved D parts p a0) D.states.length 0 parts []).1.getD iu' [] := by
    intro hvin
    have hx := PartWF_blockIdx_eq D _ hwf' v iu' hiu'len hvin
    rw [hbv'] at hx
    injection hx with hx
    exact hne' hx.symm
  have hunotv' : u ∉
      (sweep D.alphabet (involved D parts p a0) D.states.length 0 parts []).1.getD iv' [] := by
    intro huin
    have hx := PartWF_blockIdx_eq D _ hwf' u iv' hiv'len huin
    rw [hbu'] at hx
    injection hx with hx
    exact hne' hx
  have hcase_enq_u :
      (∀ c ∈ D.alphabet,
        (iu', c) ∈ (sweep D.alphabet (involved D parts p a0) D.states.length 0 parts []).2) →
      ∃ e ∈ rest ++ (sweep D.alphabet (involved D parts p a0) D.states.length 0 parts []).2,
        e.2 = a ∧
        e.1 < (sweep D.alphabet (involved D parts p a0) D.states.length 0 parts []).1.length ∧
        (u ∈ (sweep D.alphabet (involved D parts p a0) D.states.length 0 parts []).1.getD e.1 [] ↔
          v ∉ (sweep D.alphabet (involved D parts p a0) D.states.length 0 parts []).1.getD e.1 []) := by
    intro henq
    refine ⟨(iu', a), List.mem_append.mpr (Or.inr (henq a ha)), rfl, hiu'len, ?_⟩
    exact ⟨fun _ => hvnotu', fun _ => humem'⟩
  have hcase_enq_v :
      (∀ c ∈ D.alphabet,
        (iv', c) ∈ (sweep D.alphabet (involved D parts p a0) D.states.length 0 parts []).2) →
      ∃ e ∈ rest ++ (sweep D.alphabet (involved D parts p a0) D.states.length 0 parts []).2,
        e.2 = a ∧
        e.1 < (sweep D.alphabet (involved D parts p a0) D.states.length 0 parts []).1.length ∧
        (u ∈ (sweep D.alphabet (involved D parts p a0) D.states.length 0 parts []).1.getD e.1 [] ↔
          v ∉ (sweep D.alphabet (involved D parts p a0) D.states.length 0 parts []).1.getD e.1 []) := by
    intro henq
    refine ⟨(iv', a), List.mem_append.mpr (Or.inr (henq a ha)), rfl, hiv'len, ?_⟩
    exact ⟨fun hin => absurd hin hunotv', fun hnin => absurd hvmem' hnin⟩
  by_cases huv0 : iu = iv
  · rcases sweep_enqueued D.alphabet (involved D parts p a0) D.states.length 0 parts []
        iu' hiu'len with ⟨hlt, heq⟩ | henq
    · exfalso
      have hu_in_init : u ∈ parts.getD iu' [] := by rw [← heq]; exact humem'
      have hx := PartWF_blockIdx_eq D parts h u iu' hlt hu_in_init
      rw [hbu] at hx
      injection hx with hx
      apply hvnotu'
      rw [heq, ← hx, huv0]
      exact hvmem
    · exact hcase_enq_u henq
  · have hbne0 : blockIdx parts u ≠ blockIdx parts v := by
      rw [hbu, hbv]
      intro heq
      injection heq with heq
      exact huv0 heq
    obtain ⟨j0, hj0len, hs0, ht0, hmeq⟩ := step_same_block_src D parts
      (involved D parts p a0) h j' hj' s t hs ht
    obtain ⟨e0, he0mem, he0sym, he0len, he0iff⟩ :=
      hq a ha j0 hj0len s hs0 t ht0 u v hu hv hbne0
    rcases List.mem_cons.mp he0mem with he0head | he0rest
    · exfalso
      have ha0eq : a0 = a := by rw [he0head] at he0sym; exact he0sym
      subst ha0eq
      have hplen : p < parts.length := by rw [he0head] at he0len; exact he0len
      have hiffp : u ∈ parts.getD p [] ↔ v ∉ parts.getD p [] := by
        rw [he0head] at he0iff
        exact he0iff
      have hmsu : involved D parts p a0 s = true ↔ u ∈ parts.getD p [] := by
        rw [mark_true_iff D parts p a0 s u hu]
        constructor
        · exact blockIdx_mem parts u p
        · exact PartWF_blockIdx_eq D parts h u p hplen
      have hmtv : involved D parts p a0 t = true ↔ v ∈ parts.getD p [] := by
        rw [mark_true_iff D parts p a0 t v hv]
        constructor
        · exact blockIdx_mem parts v p
        · exact PartWF_blockIdx_eq D parts h v p hplen
      cases hmks : involved D parts p a0 s with
      | true =>
        have hup : u ∈ parts.getD p [] := hmsu.mp hmks
        have hvp : v ∈ parts.getD p [] := hmtv.mp (by rw [← hmeq]; exact hmks)
        exact (hiffp.mp hup) hvp
      | false =>
        have hup : u ∉ parts.getD p [] := fun hin => by
          rw [hmsu.mpr hin] at hmks
          exact absurd hmks (by simp)
        have hvp : v ∉ parts.getD p [] := fun hin => by
          have := hmtv.mpr hin
          rw [← hmeq, hmks] at this
          exact absurd this (by simp)
        exact hup (hiffp.mpr hvp)
    · by_cases huPj : u ∈ parts.getD e0.1 []
      · have hvPj : v ∉ parts.getD e0.1 [] := he0iff.mp huPj
        have hjiu : e0.1 = iu := by
          have hx := PartWF_blockIdx_eq D parts h u e0.1 he0len huPj
          rw [hbu] at hx
          injection hx with hx
          exact hx.symm
        rcases sweep_enqueued D.alphabet (involved D parts p a0) D.states.length 0 parts []
            iu' hiu'len with ⟨hlt, heq⟩ | henq
        · have hu_in_init : u ∈ parts.getD iu' [] := by rw [← heq]; exact humem'
          have hx := PartWF_blockIdx_eq D parts h u iu' hlt hu_in_init
          rw [hbu] at hx
          injection hx with hx
          have hiu'eq : iu' = iu := hx.symm
          refine ⟨e0, List.mem_append.mpr (Or.inl he0rest), he0sym, ?_, ?_⟩
          · rw [hjiu, ← hiu'eq]
            exact hiu'len
          · have h1 : u ∈ (sweep D.alphabet (involved D parts p a0) D.states.length 0
                parts []).1.getD e0.1 [] := by
              rw [hjiu, ← hiu'eq]
              exact humem'
            have h2 : v ∉ (sweep D.alphabet (involved D parts p a0) D.states.length 0
                parts []).1.getD e0.1 [] := by
              rw [hjiu, ← hiu'eq, heq, hiu'eq, ← hjiu]
              exact hvPj
            exact ⟨fun _ => h2, fun _ => h1⟩
        · exact hcase_enq_u henq
      · have hvPj : v ∈ parts.getD e0.1 [] := by
          by_contra hvn2
          exact huPj (he0iff.mpr hvn2)
        have hjiv : e0.1 = iv := by
          have hx := PartWF_blockIdx_eq D parts h v e0.1 he0len hvPj
          rw [hbv] at hx
          injection hx with hx
          exact hx.symm
        rcases sweep_enqueued D.alphabet (involved D parts p a0) D.states.length 0 parts []
            iv' hiv'len with ⟨hlt, heq⟩ | henq
        · have hv_in_init : v ∈ parts.getD iv' [] := by rw [← heq]; exact hvmem'
          have hx := PartWF_blockIdx_eq D parts h v iv' hlt hv_in_init
          rw [hbv] at hx
          injection hx with hx
          have hiv'eq : iv' = iv := hx.symm
          refine ⟨e0, List.mem_append.mpr (Or.inl he0rest), he0sym, ?_, ?_⟩
          · rw [hjiv, ← hiv'eq]
            exact hiv'len
          · have h1 : v ∈ (sweep D.alphabet (involved D parts p a0) D.states.length 0
                parts []).1.getD e0.1 [] := by
              rw [hjiv, ← hiv'eq]
              exact hvmem'
            have h2 : u ∉ (sweep D.alphabet (involved D parts p a0) D.states.length 0
                parts []).1.getD e0.1 [] := by
              rw [hjiv, ← hiv'eq]
              exact hunotv'
            exact ⟨fun hin => absurd hin h2, fun hnin => absurd h1 hnin⟩
        · exact hcase_enq_v henq

theorem stable_of_queueInv_nil (D : DFA) (parts : List (List Nat))
    (hq : DFA.QueueInv D parts []) : DFA.Stable D parts := by
  intro a ha b hb s hsb t htb u v hu hv
  obtain ⟨j, hjlen, hjb⟩ := mem_parts_index parts b hb
  by_contra hne
  obtain ⟨e, hemem, _⟩ := hq a ha j hjlen s (by rw [hjb]; exact hsb) t
    (by rw [hjb]; exact htb) u v hu hv hne
  simp at hemem

theorem refine_master (D : DFA) (hib : D.InBounds) (hcomp : D.Complete) :
    ∀ fuel parts queue,
      DFA.PartWF D parts → DFA.UniformAcc D parts → DFA.SoundParts D parts →
      DFA.QueueInv D parts queue → (∀ e ∈ queue, e.2 ∈ D.alphabet) →
      DFA.phiMeasure D parts queue < fuel →
      DFA.PartWF D (refine D fuel parts queue) ∧
      DFA.UniformAcc D (refine D fuel parts queue) ∧
      DFA.SoundParts D (refine D fuel parts queue) ∧
      DFA.Stable D (refine D fuel parts queue) := by
  intro fuel
  induction fuel with
  | zero =>
    intro parts queue _ _ _ _ _ hphi
    exact absurd hphi (Nat.not_lt_zero _)
  | succ fuel ih =>
    intro parts queue hwf huni hsound hq hqs hphi
    match queue with
    | [] =>
      rw [refine_succ_nil]
      exact ⟨hwf, huni, hsound, stable_of_queueInv_nil D parts hq⟩
    | (p, a0) :: rest =>
      rw [refine_succ_cons]
      have ha0 : a0 ∈ D.alphabet := hqs (p, a0) (by simp)
      refine ih _ _ (stepPartWF D parts _ hwf) (stepUniform D parts _ hwf huni)
        (stepSound D parts p a0 hib hcomp ha0 hwf hsound)
        (stepQueueInv D parts p a0 rest hib hwf hq) ?_ ?_
      · intro e hemem
        rcases List.mem_append.mp hemem with he | he
        · exact hqs e (by simp [he])
        · rcases sweep_adds_spec D.alphabet _ _ 0 parts [] e he with h0 | h0
          · simp at h0
          · exact h0.1
      · have hlen_le := sweep_length_le D.alphabet (involved D parts p a0)
          D.states.length 0 parts []
        have hwf' := stepPartWF D parts (involved D parts p a0) hwf
        have hlen'_le := PartWF_length_le D _ hwf'
        have hadds := sweep_adds_length D.alphabet (involved D parts p a0)
          D.states.length 0 parts []
        simp only [List.length_nil, Nat.zero_add] at hadds
        rw [DFA.phiMeasure] at hphi ⊢
        rw [List.length_append]
        rw [Nat.mul_sub_left_distrib] at hphi ⊢
        have hm1 : 2 * D.alphabet.length * parts.length ≤
            2 * D.alphabet.length *
              (sweep D.alphabet (involved D parts p a0) D.states.length 0 parts []).1.length :=
          Nat.mul_le_mul_left _ hlen_le
        have hm2 : 2 * D.alphabet.length *
            (sweep D.alphabet (involved D parts p a0) D.states.length 0 parts []).1.length ≤
            2 * D.alphabet.length * D.states.length :=
          Nat.mul_le_mul_left _ hlen'_le
        simp only [List.length_cons] at hphi
        omega

/-! ### The initial partition and queue -/

theorem accStates_append_rejStates_perm (D : DFA) :
    (accStates D ++ rejStates D).Perm (List.range D.states.length) :=
  List.filter_append_perm _ _

theorem mem_accStates (D : DFA) (i : Nat) :
    i ∈ accStates D ↔ i < D.states.length ∧ DFA.accOf D i = true := by
  rw [accStates, List.mem_filter, List.mem_range, DFA.accOf]

theorem mem_rejStates (D : DFA) (i : Nat) :
    i ∈ rejStates D ↔ i < D.states.length ∧ DFA.accOf D i = false := by
  rw [rejStates, List.mem_filter, List.mem_range, DFA.accOf]
  simp

theorem initialParts_shape (D : DFA) (hne : D.states ≠ []) :
    (accStates D ≠ [] ∧ rejStates D ≠ [] ∧ initialParts D = [accStates D, rejStates D]) ∨
    (accStates D = [] ∧ rejStates D ≠ [] ∧ initialParts D = [rejStates D]) ∨
    (rejStates D = [] ∧ accStates D ≠ [] ∧ initialParts D = [accStates D]) := by
  have hperm := accStates_append_rejStates_perm D
  have hnz : D.states.length ≠ 0 := by
    cases hst : D.states with
    | nil => exact absurd hst hne
    | cons x xs => simp [hst]
  by_cases h1 : accStates D = []
  · by_cases h2 : rejStates D = []
    · exfalso
      rw [h1, h2] at hperm
      have := hperm.length_eq
      rw [List.length_range] at this
      simp at this
      exact hnz this.symm
    · exact Or.inr (Or.inl ⟨h1, h2, by simp [initialParts, h1, h2]⟩)
  · by_cases h2 : rejStates D = []
    · exact Or.inr (Or.inr ⟨h2, h1, by simp [initialParts, h1, h2]⟩)
    · exact Or.inl ⟨h1, h2, by simp [initialParts, h1, h2]⟩

theorem initialParts_wf (D : DFA) (hne : D.states ≠ []) :
    DFA.PartWF D (initialParts D) := by
  have hperm := accStates_append_rejStates_perm D
  rcases initialParts_shape D hne with ⟨h1, h2, heq⟩ | ⟨h1, h2, heq⟩ | ⟨h1, h2, heq⟩
  · constructor
    · rw [heq]
      simpa using hperm
    · intro b hb
      rw [heq] at hb
      rcases List.mem_cons.mp hb with rfl | hb
      · exact h1
      · simp at hb
        subst hb
        exact h2
  · constructor
    · rw [heq]
      rw [h1] at hperm
      simpa using hperm
    · intro b hb
      rw [heq] at hb
      simp at hb
      subst hb
      exact h2
  · constructor
    · rw [heq]
      rw [h1] at hperm
      simpa using hperm
    · intro b hb
      rw [heq] at hb
      simp at hb
      subst hb
      exact h2

theorem initialParts_uniform (D : DFA) (hne : D.states ≠ []) :
    DFA.UniformAcc D (initialParts D) := by
  have huacc : ∀ s ∈ accStates D, ∀ t ∈ accStates D,
      DFA.accOf D s = DFA.accOf D t := by
    intro s hsm t htm
    rw [(mem_accStates D s).mp hsm |>.2, (mem_accStates D t).mp htm |>.2]
  have hurej : ∀ s ∈ rejStates D, ∀ t ∈ rejStates D,
      DFA.accOf D s = DFA.accOf D t := by
    intro s hsm t htm
    rw [(mem_rejStates D s).mp hsm |>.2, (mem_rejStates D t).mp htm |>.2]
  intro b hb s hsm t htm
  rcases initialParts_shape D hne with ⟨_, _, heq⟩ | ⟨_, _, heq⟩ | ⟨_, _, heq⟩ <;>
    rw [heq] at hb
  · rcases List.mem_cons.mp hb with rfl | hb
    · exact huacc s hsm t htm
    · simp at hb
      subst hb
      exact hurej s hsm t htm
  · simp at hb
    subst hb
    exact hurej s hsm t htm
  · simp at hb
    subst hb
    exact huacc s hsm t htm

theorem initialParts_sound (D : DFA) (hne : D.states ≠ []) :
    DFA.SoundParts D (initialParts D) := by
  have hkey : ∀ s t, DFA.accOf D s ≠ DFA.accOf D t →
      ∃ w, (∀ x ∈ w, x ∈ D.alphabet) ∧
        DFA.acceptsFrom D s w ≠ DFA.acceptsFrom D t w := by
    intro s t hne'
    exact ⟨[], by simp, hne'⟩
  intro i j hi hj hij s hsm t htm
  rcases initialParts_shape D hne with ⟨_, _, heq⟩ | ⟨_, _, heq⟩ | ⟨_, _, heq⟩ <;>
    rw [heq] at hi hj hsm htm
  · simp only [List.length_cons, List.length_nil] at hi hj
    match i, j with
    | 0, 1 =>
      simp only [List.getD_cons_zero, List.getD_cons_succ] at hsm htm
      apply hkey
      rw [(mem_accStates D s).mp hsm |>.2, (mem_rejStates D t).mp htm |>.2]
      simp
    | 1, 0 =>
      simp only [List.getD_cons_zero, List.getD_cons_succ] at hsm htm
      apply hkey
      rw [(mem_rejStates D s).mp hsm |>.2, (mem_accStates D t).mp htm |>.2]
      simp
    | 0, 0 => exact absurd rfl hij
    | 1, 1 => exact absurd rfl hij
  · simp at hi hj
    subst hi; subst hj
    exact absurd rfl hij
  · simp at hi hj
    subst hi; subst hj
    exact absurd rfl hij

theorem mem_initialQueue (D : DFA) (parts : List (List Nat)) (e : Nat × String) :
    e ∈ initialQueue D parts ↔ e.1 < parts.length ∧ e.2 ∈ D.alphabet := by
  rw [initialQueue]
  have hgen : ∀ (l : List Nat),
      (e ∈ l.foldr (fun idx acc => (D.alphabet.map fun a => (idx, a)) ++ acc) []) ↔
        (∃ i ∈ l, e.1 = i ∧ e.2 ∈ D.alphabet) := by
    intro l
    induction l with
    | nil => simp
    | cons x xs ih =>
      simp only [List.foldr_cons, List.mem_append, ih, List.mem_cons]
      constructor
      · intro h
        rcases h with h | h
        · obtain ⟨a, ha, heq⟩ := List.mem_map.mp h
          exact ⟨x, Or.inl rfl, by rw [← heq], by rw [← heq]; exact ha⟩
        · obtain ⟨i, hi, h1, h2⟩ := h
          exact ⟨i, Or.inr hi, h1, h2⟩
      · intro ⟨i, hi, h1, h2⟩
        rcases hi with rfl | hi
        · left
          refine List.mem_map.mpr ⟨e.2, h2, ?_⟩
          rw [← h1]
        · exact Or.inr ⟨i, hi, h1, h2⟩
  rw [hgen]
  constructor
  · intro ⟨i, hi, h1, h2⟩
    rw [h1]
    exact ⟨(List.mem_range.mp hi), h2⟩
  · intro ⟨h1, h2⟩
    exact ⟨e.1, List.mem_range.mpr h1, rfl, h2⟩

theorem initialQueue_length (D : DFA) (parts : List (List Nat)) :
    (initialQueue D parts).length = parts.length * D.alphabet.length := by
  rw [initialQueue]
  have hgen : ∀ (l : List Nat),
      (l.foldr (fun idx acc => (D.alphabet.map fun a => (idx, a)) ++ acc) []).length =
        l.length * D.alphabet.length := by
    intro l
    induction l with
    | nil => simp
    | cons x xs ih =>
      simp only [List.foldr_cons, List.length_append, List.length_map, ih,
        List.length_cons]
      ring
  rw [hgen, List.length_range]

theorem initialQueueInv (D : DFA) (parts : List (List Nat)) (hib : D.InBounds)
    (hwf : DFA.PartWF D parts) :
    DFA.QueueInv D parts (initialQueue D parts) := by
  intro a ha j hj s hsm t htm u v hu hv hbne
  have hun := trOf_lt D hib s u a hu
  obtain ⟨iu, hbu, hiulen, humem⟩ := PartWF_blockIdx D parts hwf u hun
  refine ⟨(iu, a), (mem_initialQueue D parts (iu, a)).mpr ⟨hiulen, ha⟩, rfl, hiulen, ?_⟩
  constructor
  · intro _ hvin
    have := PartWF_blockIdx_eq D parts hwf v iu hiulen hvin
    rw [hbu] at hbne
    rw [this] at hbne
    exact hbne rfl
  · intro _
    exact humem

theorem initialParts_length_le_two (D : DFA) (hne : D.states ≠ []) :
    (initialParts D).length ≤ 2 := by
  rcases initialParts_shape D hne with ⟨_, _, heq⟩ | ⟨_, _, heq⟩ | ⟨_, _, heq⟩ <;>
    rw [heq] <;> simp

theorem minimize_parts_spec (D : DFA) (hib : D.InBounds) (hcomp : D.Complete)
    (hne : D.states ≠ []) :
    DFA.PartWF D (refine D ((2 * D.states.length + 2) * D.alphabet.length + 1)
        (initialParts D) (initialQueue D (initialParts D))) ∧
    DFA.UniformAcc D (refine D ((2 * D.states.length + 2) * D.alphabet.length + 1)
        (initialParts D) (initialQueue D (initialParts D))) ∧
    DFA.SoundParts D (refine D ((2 * D.states.length + 2) * D.alphabet.length + 1)
        (initialParts D) (initialQueue D (initialParts D))) ∧
    DFA.Stable D (refine D ((2 * D.states.length + 2) * D.alphabet.length + 1)
        (initialParts D) (initialQueue D (initialParts D))) := by
  refine refine_master D hib hcomp _ _ _ (initialParts_wf D hne)
    (initialParts_uniform D hne) (initialParts_sound D hne)
    (initialQueueInv D _ hib (initialParts_wf D hne)) ?_ ?_
  · intro e he
    exact ((mem_initialQueue D _ e).mp he).2
  · rw [DFA.phiMeasure, initialQueue_length]
    have hle2 := initialParts_length_le_two D hne
    have h2A : (initialParts D).length * D.alphabet.length ≤ 2 * D.alphabet.length :=
      Nat.mul_le_mul_right _ hle2
    have hsub : D.states.length - (initialParts D).length ≤ D.states.length :=
      Nat.sub_le _ _
    have h2 : 2 * D.alphabet.length * (D.states.length - (initialParts D).length) ≤
        2 * D.alphabet.length * D.states.length := Nat.mul_le_mul_left _ hsub
    have hexp : (2 * D.states.length + 2) * D.alphabet.length =
        2 * D.alphabet.length * D.states.length + 2 * D.alphabet.length := by ring
    omega

theorem minimize_eq_rebuild (D : DFA) (hne : D.states ≠ []) :
    D.minimize = rebuild D (refine D ((2 * D.states.length + 2) * D.alphabet.length + 1)
      (initialParts D) (initialQueue D (initialParts D))) := by
  rw [DFA.minimize, if_neg hne]

/-! ### The rebuilt (minimized) DFA -/

theorem getD_map_state (f : List Nat → DFAState) (parts : List (List Nat)) (i : Nat)
    (h : i < parts.length) :
    (parts.map f).getD i default = f (parts.getD i []) := by
  rw [List.getD_eq_getElem _ _ (by simpa), List.getElem_map,
    List.getD_eq_getElem _ _ h]

theorem getD_map_gen {α β : Type} [Inhabited β] (f : α → β) (l : List α) (i : Nat)
    (h : i < l.length) (d : α) :
    (l.map f).getD i default = f (l.getD i d) := by
  rw [List.getD_eq_getElem _ _ (by simpa), List.getElem_map,
    List.getD_eq_getElem _ _ h]

theorem headD_mem {α : Type} (l : List α) (d : α) (h : l ≠ []) : l.headD d ∈ l := by
  cases l with
  | nil => exact absurd rfl h
  | cons x xs => simp

theorem rebuild_length (D : DFA) (parts : List (List Nat)) :
    (rebuild D parts).states.length = parts.length := by
  simp [rebuild]

theorem rebuild_alphabet (D : DFA) (parts : List (List Nat)) :
    (rebuild D parts).alphabet = D.alphabet := rfl

theorem rebuild_start (D : DFA) (parts : List (List Nat)) (hne : parts ≠ []) :
    (rebuild D parts).start_state = (blockIdx parts D.start_state).getD 0 := by
  simp [rebuild, hne]

theorem rebuild_stateAt (D : DFA) (parts : List (List Nat)) (i : Nat)
    (h : i < parts.length) :
    (rebuild D parts).states.getD i default =
      { transitions :=
          (D.states.getD ((parts.getD i []).headD 0) default).transitions.map
            fun pr => (pr.1, (blockIdx parts pr.2).getD 0)
        positive_count :=
          ((parts.getD i []).map fun s => (D.states.getD s default).positive_count).sum
        negative_count :=
          ((parts.getD i []).map fun s => (D.states.getD s default).negative_count).sum
        accepting := decide
          (((parts.getD i []).map fun s => (D.states.getD s default).positive_count).sum >
           ((parts.getD i []).map fun s => (D.states.getD s default).negative_count).sum) } := by
  show (parts.map _).getD i default = _
  rw [getD_map_state _ parts i h]

theorem mem_states_index (E : DFA) (st : DFAState) (hst : st ∈ E.states) :
    ∃ i, i < E.states.length ∧ E.states.getD i default = st := by
  obtain ⟨i, hi, hg⟩ := List.mem_iff_getElem.mp hst
  exact ⟨i, hi, by rw [List.getD_eq_getElem _ _ hi]; exact hg⟩

theorem rebuild_trOf (D : DFA) (parts : List (List Nat)) (i : Nat) (a : String)
    (h : i < parts.length) :
    DFA.trOf (rebuild D parts) i a =
      (DFA.trOf D ((parts.getD i []).headD 0) a).map
        fun t => (blockIdx parts t).getD 0 := by
  rw [DFA.trOf, rebuild_stateAt D parts i h]
  show lookupTr ((D.states.getD ((parts.getD i []).headD 0) default).transitions.map
      fun pr => (pr.1, (blockIdx parts pr.2).getD 0)) a = _
  exact lookupTr_map_snd _ (fun t => (blockIdx parts t).getD 0) a

theorem sum_le_sum_of_forall (block : List Nat) (f g : Nat → Nat)
    (hall : ∀ s ∈ block, g s ≤ f s) :
    (block.map g).sum ≤ (block.map f).sum := by
  induction block with
  | nil => simp
  | cons x xs ih =>
    have h1 := hall x (by simp)
    have h2 := ih fun s hs => hall s (by simp [hs])
    simp only [List.map_cons, List.sum_cons]
    omega

theorem sum_lt_sum_of_forall (block : List Nat) (f g : Nat → Nat) (hne : block ≠ [])
    (hall : ∀ s ∈ block, g s < f s) :
    (block.map g).sum < (block.map f).sum := by
  cases block with
  | nil => exact absurd rfl hne
  | cons x xs =>
    have h1 := hall x (by simp)
    have h2 := sum_le_sum_of_forall xs f g fun s hs => Nat.le_of_lt (hall s (by simp [hs]))
    simp only [List.map_cons, List.sum_cons]
    omega

theorem rebuild_accOf (D : DFA) (parts : List (List Nat)) (hmaj : D.MajorityAcc)
    (hwf : DFA.PartWF D parts) (huni : DFA.UniformAcc D parts) (i : Nat)
    (hi : i < parts.length) (s : Nat) (hs : s ∈ parts.getD i []) :
    DFA.accOf (rebuild D parts) i = DFA.accOf D s := by
  rw [DFA.accOf, rebuild_stateAt D parts i hi]
  have hblock := getD_mem parts i hi
  have hbne : parts.getD i [] ≠ [] := hwf.2 _ hblock
  cases hacc : DFA.accOf D s with
  | true =>
    have hall : ∀ t ∈ parts.getD i [],
        (D.states.getD t default).negative_count <
        (D.states.getD t default).positive_count := by
      intro t htm
      have ht : DFA.accOf D t = true := by rw [huni _ hblock t htm s hs, hacc]
      have htlt := PartWF_lt_of_mem D parts hwf t i hi htm
      have hm := hmaj _ (getD_mem_states D t htlt)
      rw [DFA.accOf] at ht
      rw [ht] at hm
      exact of_decide_eq_true hm.symm
    have hlt := sum_lt_sum_of_forall (parts.getD i [])
      (fun t => (D.states.getD t default).positive_count)
      (fun t => (D.states.getD t default).negative_count) hbne hall
    simpa using hlt
  | false =>
    have hall : ∀ t ∈ parts.getD i [],
        (D.states.getD t default).positive_count ≤
        (D.states.getD t default).negative_count := by
      intro t htm
      have ht : DFA.accOf D t = false := by rw [huni _ hblock t htm s hs, hacc]
      have htlt := PartWF_lt_of_mem D parts hwf t i hi htm
      have hm := hmaj _ (getD_mem_states D t htlt)
      rw [DFA.accOf] at ht
      rw [ht] at hm
      have := of_decide_eq_false hm.symm
      omega
    have hle := sum_le_sum_of_forall (parts.getD i [])
      (fun t => (D.states.getD t default).negative_count)
      (fun t => (D.states.getD t default).positive_count) hall
    simpa using hle

theorem rebuild_inBounds (D : DFA) (parts : List (List Nat)) (hib : D.InBounds)
    (hwf : DFA.PartWF D parts) (hne : parts ≠ []) :
    (rebuild D parts).InBounds := by
  constructor
  · rw [rebuild_start D parts hne, rebuild_length]
    obtain ⟨i, hbi, hilen, _⟩ := PartWF_blockIdx D parts hwf D.start_state hib.1
    rw [hbi]
    simpa using hilen
  · intro st hst pr hpr
    rw [rebuild_length]
    obtain ⟨i, hi, hgeq⟩ := mem_states_index _ st hst
    rw [rebuild_length] at hi
    rw [← hgeq, rebuild_stateAt D parts i hi] at hpr
    dsimp only at hpr
    obtain ⟨pr0, hpr0, hpreq⟩ := List.mem_map.mp hpr
    have hrep : (parts.getD i []).headD 0 ∈ parts.getD i [] :=
      headD_mem _ 0 (hwf.2 _ (getD_mem parts i hi))
    have hreplt : (parts.getD i []).headD 0 < D.states.length :=
      PartWF_lt_of_mem D parts hwf _ i hi hrep
    have ht : pr0.2 < D.states.length :=
      hib.2 _ (getD_mem_states D _ hreplt) _ hpr0
    obtain ⟨k, hbk, hklen, _⟩ := PartWF_blockIdx D parts hwf pr0.2 ht
    rw [← hpreq]
    dsimp only
    rw [hbk]
    simpa using hklen

theorem rebuild_complete (D : DFA) (parts : List (List Nat)) (hcomp : D.Complete)
    (hwf : DFA.PartWF D parts) :
    (rebuild D parts).Complete := by
  intro st hst a ha
  obtain ⟨i, hi, hgeq⟩ := mem_states_index _ st hst
  rw [rebuild_length] at hi
  rw [← hgeq]
  show (DFA.trOf (rebuild D parts) i a).isSome
  rw [rebuild_trOf D parts i a hi]
  have hrep : (parts.getD i []).headD 0 ∈ parts.getD i [] :=
    headD_mem _ 0 (hwf.2 _ (getD_mem parts i hi))
  have hreplt : (parts.getD i []).headD 0 < D.states.length :=
    PartWF_lt_of_mem D parts hwf _ i hi hrep
  have := trOf_isSome D hcomp _ hreplt a ha
  simpa using this

theorem rebuild_majority (D : DFA) (parts : List (List Nat)) :
    (rebuild D parts).MajorityAcc := by
  intro st hst
  obtain ⟨i, hi, hgeq⟩ := mem_states_index _ st hst
  rw [rebuild_length] at hi
  rw [← hgeq, rebuild_stateAt D parts i hi]

theorem rebuild_acceptsFrom (D : DFA) (parts : List (List Nat)) (hib : D.InBounds)
    (hcomp : D.Complete) (hmaj : D.MajorityAcc) (hwf : DFA.PartWF D parts)
    (huni : DFA.UniformAcc D parts) (hstab : DFA.Stable D parts) :
    ∀ w, (∀ x ∈ w, x ∈ D.alphabet) → ∀ s, s < D.states.length →
      DFA.acceptsFrom (rebuild D parts) ((blockIdx parts s).getD 0) w =
        DFA.acceptsFrom D s w := by
  intro w
  induction w with
  | nil =>
    intro _ s hsn
    obtain ⟨i, hbi, hilen, hsmem⟩ := PartWF_blockIdx D parts hwf s hsn
    rw [hbi]
    simp only [Option.getD_some]
    exact rebuild_accOf D parts hmaj hwf huni i hilen s hsmem
  | cons a w' ih =>
    intro hw s hsn
    have ha : a ∈ D.alphabet := hw a (by simp)
    have hw' : ∀ x ∈ w', x ∈ D.alphabet := fun x hx => hw x (by simp [hx])
    obtain ⟨i, hbi, hilen, hsmem⟩ := PartWF_blockIdx D parts hwf s hsn
    rw [hbi]
    simp only [Option.getD_some]
    have hrep : (parts.getD i []).headD 0 ∈ parts.getD i [] :=
      headD_mem _ 0 (hwf.2 _ (getD_mem parts i hilen))
    have hreplt : (parts.getD i []).headD 0 < D.states.length :=
      PartWF_lt_of_mem D parts hwf _ i hilen hrep
    have hrsome := trOf_isSome D hcomp _ hreplt a ha
    have hssome := trOf_isSome D hcomp s hsn a ha
    cases hru : DFA.trOf D ((parts.getD i []).headD 0) a with
    | none => rw [hru] at hrsome; simp at hrsome
    | some u =>
      cases hsv : DFA.trOf D s a with
      | none => rw [hsv] at hssome; simp at hssome
      | some v =>
        have hbuv : blockIdx parts u = blockIdx parts v :=
          hstab a ha _ (getD_mem parts i hilen) _ hrep s hsmem u v hru hsv
        have hMtr : DFA.trOf (rebuild D parts) i a = some ((blockIdx parts u).getD 0) := by
          rw [rebuild_trOf D parts i a hilen, hru]
          rfl
        rw [acceptsFrom_cons (rebuild D parts) i a w' _ hMtr]
        rw [acceptsFrom_cons D s a w' v hsv]
        rw [hbuv]
        exact ih hw' v (trOf_lt D hib s v a hsv)

/-! ### `classify` versus the state walk -/

theorem classifyGo_eq_acceptsFrom (D : DFA) (hib : D.InBounds) (hcomp : D.Complete) :
    ∀ w, (∀ x ∈ w, x ∈ D.alphabet) → ∀ s, s < D.states.length →
      DFA.classifyGo D s w = DFA.acceptsFrom D s w := by
  intro w
  induction w with
  | nil => intro _ s _; rfl
  | cons a w' ih =>
    intro hw s hsn
    have ha := hw a (by simp)
    have hsome := trOf_isSome D hcomp s hsn a ha
    cases h : DFA.trOf D s a with
    | none => rw [h] at hsome; simp at hsome
    | some t =>
      have htn := trOf_lt D hib s t a h
      have h' : lookupTr (D.states.getD s default).transitions a = some t := h
      rw [DFA.classifyGo, DFA.acceptsFrom, h, h']
      exact ih (fun x hx => hw x (by simp [hx])) t htn

theorem classify_eq_acceptsFrom (D : DFA) (hib : D.InBounds) (hcomp : D.Complete)
    (w : List String) (hw : ∀ x ∈ w, x ∈ D.alphabet) :
    D.classify w = DFA.acceptsFrom D D.start_state w := by
  have hstart := hib.1
  have hne : D.states ≠ [] := by
    intro h0
    rw [h0] at hstart
    simp at hstart
  rw [DFA.classify, if_neg hne, if_neg (by omega : ¬ D.states.length ≤ D.start_state)]
  exact classifyGo_eq_acceptsFrom D hib hcomp w hw _ hstart

theorem minimize_classify_eq (D : DFA) (hib : D.InBounds) (hmaj : D.MajorityAcc)
    (hcomp : D.Complete) (w : List String) (hw : ∀ x ∈ w, x ∈ D.alphabet) :
    (D.minimize).classify w = D.classify w := by
  have hstart := hib.1
  have hne : D.states ≠ [] := by
    intro h0
    rw [h0] at hstart
    simp at hstart
  obtain ⟨hwf, huni, hsound, hstab⟩ := minimize_parts_spec D hib hcomp hne
  have hpne : refine D ((2 * D.states.length + 2) * D.alphabet.length + 1)
      (initialParts D) (initialQueue D (initialParts D)) ≠ [] := by
    intro h0
    have hp := hwf.1
    rw [h0] at hp
    have hlen := hp.length_eq
    simp only [List.flatten_nil, List.length_nil, List.length_range] at hlen
    rw [← hlen] at hstart
    simp at hstart
  have hMib := rebuild_inBounds D _ hib hwf hpne
  have hMcomp := rebuild_complete D _ hcomp hwf
  rw [minimize_eq_rebuild D hne]
  rw [classify_eq_acceptsFrom _ hMib hMcomp w hw]
  rw [classify_eq_acceptsFrom D hib hcomp w hw]
  rw [rebuild_start _ _ hpne]
  exact rebuild_acceptsFrom D _ hib hcomp hmaj hwf huni hstab w hw D.start_state hib.1

/-! ### Idempotence of minimization on the state count -/

theorem stable_lang_eq (E : DFA) (hib : E.InBounds) (hcomp : E.Complete)
    (parts : List (List Nat)) (hwf : DFA.PartWF E parts) (huni : DFA.UniformAcc E parts)
    (hstab : DFA.Stable E parts) :
    ∀ w, (∀ x ∈ w, x ∈ E.alphabet) → ∀ j, j < parts.length →
      ∀ s ∈ parts.getD j [], ∀ t ∈ parts.getD j [],
        DFA.acceptsFrom E s w = DFA.acceptsFrom E t w := by
  intro w
  induction w with
  | nil =>
    intro _ j hj s hsm t htm
    exact huni _ (getD_mem parts j hj) s hsm t htm
  | cons a w' ih =>
    intro hw j hj s hsm t htm
    have ha := hw a (by simp)
    have hw' : ∀ x ∈ w', x ∈ E.alphabet := fun x hx => hw x (by simp [hx])
    have hsn := PartWF_lt_of_mem E parts hwf s j hj hsm
    have htn := PartWF_lt_of_mem E parts hwf t j hj htm
    have hus := trOf_isSome E hcomp s hsn a ha
    have hut := trOf_isSome E hcomp t htn a ha
    cases hu : DFA.trOf E s a with
    | none => rw [hu] at hus; simp at hus
    | some u =>
      cases hv : DFA.trOf E t a with
      | none => rw [hv] at hut; simp at hut
      | some v =>
        have hun := trOf_lt E hib s u a hu
        obtain ⟨k, hbk, hklen, humem⟩ := PartWF_blockIdx E parts hwf u hun
        have hbuv := hstab a ha _ (getD_mem parts j hj) s hsm t htm u v hu hv
        have hbv : blockIdx parts v = some k := by rw [← hbuv, hbk]
        have hvmem := blockIdx_mem parts v k hbv
        rw [acceptsFrom_cons E s a w' u hu, acceptsFrom_cons E t a w' v hv]
        exact ih hw' k hklen u humem v hvmem

theorem block_length_one (b : List Nat) (hne : b ≠ []) (hnd : b.Nodup)
    (hall : ∀ s ∈ b, ∀ t ∈ b, s = t) : b.length = 1 := by
  cases b with
  | nil => exact absurd rfl hne
  | cons x xs =>
    cases xs with
    | nil => rfl
    | cons y ys =>
      have hxy : y = x := hall y (by simp) x (by simp)
      subst hxy
      simp at hnd

theorem block_nodup_of_flatten (parts : List (List Nat)) (hnd : parts.flatten.Nodup)
    (b : List Nat) (hb : b ∈ parts) : b.Nodup := by
  induction parts with
  | nil => simp at hb
  | cons c rest ih =>
    rw [List.flatten_cons, List.nodup_append] at hnd
    rcases List.mem_cons.mp hb with rfl | hb
    · exact hnd.1
    · exact ih hnd.2.1 hb

theorem flatten_length_of_singletons (parts : List (List Nat))
    (hall : ∀ b ∈ parts, b.length = 1) : parts.flatten.length = parts.length := by
  induction parts with
  | nil => simp
  | cons b rest ih =>
    have h1 := hall b (by simp)
    have h2 := ih fun c hc => hall c (by simp [hc])
    simp only [List.flatten_cons, List.length_append, List.length_cons]
    omega

theorem minimize_minimize_length (D : DFA) (hib : D.InBounds) (hmaj : D.MajorityAcc)
    (hcomp : D.Complete) :
    D.minimize.minimize.states.length = D.minimize.states.length := by
  have hstart := hib.1
  have hne : D.states ≠ [] := by
    intro h0
    rw [h0] at hstart
    simp at hstart
  obtain ⟨hwf, huni, hsound, hstab⟩ := minimize_parts_spec D hib hcomp hne
  have hpne : refine D ((2 * D.states.length + 2) * D.alphabet.length + 1)
      (initialParts D) (initialQueue D (initialParts D)) ≠ [] := by
    intro h0
    have hp := hwf.1
    rw [h0] at hp
    have hlen := hp.length_eq
    simp only [List.flatten_nil, List.length_nil, List.length_range] at hlen
    rw [← hlen] at hstart
    simp at hstart
  have hMib := rebuild_inBounds D _ hib hwf hpne
  have hMcomp := rebuild_complete D _ hcomp hwf
  rw [minimize_eq_rebuild D hne]
  have hMlen : (rebuild D (refine D ((2 * D.states.length + 2) * D.alphabet.length + 1)
      (initialParts D) (initialQueue D (initialParts D)))).states.length =
      (refine D ((2 * D.states.length + 2) * D.alphabet.length + 1)
        (initialParts D) (initialQueue D (initialParts D))).length :=
    rebuild_length D _
  have hMne : (rebuild D (refine D ((2 * D.states.length + 2) * D.alphabet.length + 1)
      (initialParts D) (initialQueue D (initialParts D)))).states ≠ [] := by
    intro h0
    rw [h0] at hMlen
    simp only [List.length_nil] at hMlen
    cases hp0 : refine D ((2 * D.states.length + 2) * D.alphabet.length + 1)
        (initialParts D) (initialQueue D (initialParts D)) with
    | nil => exact hpne hp0
    | cons b rest => rw [hp0] at hMlen; simp at hMlen
  obtain ⟨hwf2, huni2, hsound2, hstab2⟩ := minimize_parts_spec _ hMib hMcomp hMne
  rw [minimize_eq_rebuild _ hMne, rebuild_length]
  have hsing : ∀ b ∈ refine (rebuild D (refine D
        ((2 * D.states.length + 2) * D.alphabet.length + 1)
        (initialParts D) (initialQueue D (initialParts D))))
        ((2 * (rebuild D (refine D ((2 * D.states.length + 2) * D.alphabet.length + 1)
          (initialParts D) (initialQueue D (initialParts D)))).states.length + 2) *
          (rebuild D (refine D ((2 * D.states.length + 2) * D.alphabet.length + 1)
            (initialParts D) (initialQueue D (initialParts D)))).alphabet.length + 1)
        (initialParts (rebuild D (refine D
          ((2 * D.states.length + 2) * D.alphabet.length + 1)
          (initialParts D) (initialQueue D (initialParts D)))))
        (initialQueue (rebuild D (refine D
          ((2 * D.states.length + 2) * D.alphabet.length + 1)
          (initialParts D) (initialQueue D (initialParts D))))
          (initialParts (rebuild D (refine D
            ((2 * D.states.length + 2) * D.alphabet.length + 1)
            (initialParts D) (initialQueue D (initialParts D)))))),
      ∀ s ∈ b, ∀ t ∈ b, s = t := by
    intro b hb s hsm t htm
    by_contra hst
    obtain ⟨j2, hj2, hbeq⟩ := mem_parts_index _ b hb
    rw [← hbeq] at hsm htm
    have hsn' := PartWF_lt_of_mem _ _ hwf2 s j2 hj2 hsm
    have htn' := PartWF_lt_of_mem _ _ hwf2 t j2 hj2 htm
    rw [hMlen] at hsn' htn'
    have hsblock := getD_mem _ s hsn'
    have htblock := getD_mem _ t htn'
    have hsbne := hwf.2 _ hsblock
    have htbne := hwf.2 _ htblock
    obtain ⟨w, hwS, hne'⟩ := hsound s t hsn' htn' hst
      _ (headD_mem _ 0 hsbne) _ (headD_mem _ 0 htbne)
    have hσn := PartWF_lt_of_mem D _ hwf _ s hsn' (headD_mem _ 0 hsbne)
    have hτn := PartWF_lt_of_mem D _ hwf _ t htn' (headD_mem _ 0 htbne)
    have hbs2 := PartWF_blockIdx_eq D _ hwf _ s hsn' (headD_mem _ 0 hsbne)
    have hbt2 := PartWF_blockIdx_eq D _ hwf _ t htn' (headD_mem _ 0 htbne)
    have hsim1 := rebuild_acceptsFrom D _ hib hcomp hmaj hwf huni hstab w hwS _ hσn
    have hsim2 := rebuild_acceptsFrom D _ hib hcomp hmaj hwf huni hstab w hwS _ hτn
    rw [hbs2] at hsim1
    rw [hbt2] at hsim2
    simp only [Option.getD_some] at hsim1 hsim2
    have hMne2 : DFA.acceptsFrom (rebuild D (refine D
        ((2 * D.states.length + 2) * D.alphabet.length + 1)
        (initialParts D) (initialQueue D (initialParts D)))) s w ≠
        DFA.acceptsFrom (rebuild D (refine D
          ((2 * D.states.length + 2) * D.alphabet.length + 1)
          (initialParts D) (initialQueue D (initialParts D)))) t w := by
      rw [hsim1, hsim2]
      exact hne'
    exact hMne2 (stable_lang_eq _ hMib hMcomp _ hwf2 huni2 hstab2 w hwS j2 hj2
      s hsm t htm)
  have hsing1 : ∀ b ∈ refine (rebuild D (refine D
        ((2 * D.states.length + 2) * D.alphabet.length + 1)
        (initialParts D) (initialQueue D (initialParts D))))
        ((2 * (rebuild D (refine D ((2 * D.states.length + 2) * D.alphabet.length + 1)
          (initialParts D) (initialQueue D (initialParts D)))).states.length + 2) *
          (rebuild D (refine D ((2 * D.states.length + 2) * D.alphabet.length + 1)
            (initialParts D) (initialQueue D (initialParts D)))).alphabet.length + 1)
        (initialParts (rebuild D (refine D
          ((2 * D.states.length + 2) * D.alphabet.length + 1)
          (initialParts D) (initialQueue D (initialParts D)))))
        (initialQueue (rebuild D (refine D
          ((2 * D.states.length + 2) * D.alphabet.length + 1)
          (initialParts D) (initialQueue D (initialParts D))))
          (initialParts (rebuild D (refine D
            ((2 * D.states.length + 2) * D.alphabet.length + 1)
            (initialParts D) (initialQueue D (initialParts D)))))),
      b.length = 1 := by
    intro b hb
    exact block_length_one b (hwf2.2 b hb)
      (block_nodup_of_flatten _ (PartWF_nodup _ _ hwf2) b hb) (hsing b hb)
  have hflat2 := hwf2.1.length_eq
  rw [List.length_range] at hflat2
  rw [← flatten_length_of_singletons _ hsing1, hflat2, hMlen]

/-! ### Properties of `ensure_complete_transitions` and `from_pta` -/

theorem lookupTr_foldl_setTr (al : List String) (k : Nat) :
    ∀ (m : List (String × Nat)) (b : String),
      lookupTr (al.foldl (fun m a => setTr m a k) m) b =
        if b ∈ al then some k else lookupTr m b := by
  induction al with
  | nil => intro m b; simp
  | cons a rest ih =>
    intro m b
    rw [List.foldl_cons, ih]
    by_cases hb : b ∈ rest
    · simp [hb]
    · rw [if_neg hb]
      by_cases hba : b = a
      · subst hba
        simp [lookupTr_setTr_self]
      · rw [lookupTr_setTr_ne m a b k hba]
        simp [hba, hb]

theorem lookupTr_foldl_fill (al : List String) (k : Nat) :
    ∀ (tr : List (String × Nat)) (b : String),
      lookupTr (al.foldl
        (fun m a => if (lookupTr m a).isNone then setTr m a k else m) tr) b =
      if b ∈ al then some ((lookupTr tr b).getD k) else lookupTr tr b := by
  induction al with
  | nil => intro tr b; simp
  | cons a rest ih =>
    intro tr b
    rw [List.foldl_cons]
    set tr' := if (lookupTr tr a).isNone then setTr tr a k else tr with htr'
    rw [ih tr' b]
    have key1 : lookupTr tr' a = some ((lookupTr tr a).getD k) := by
      rw [htr']
      cases h : lookupTr tr a with
      | none => simp [h, lookupTr_setTr_self]
      | some v => simp [h]
    have key2 : ∀ b', b' ≠ a → lookupTr tr' b' = lookupTr tr b' := by
      intro b' hb'
      rw [htr']
      cases h : lookupTr tr a with
      | none => simp [h, lookupTr_setTr_ne tr a b' k hb']
      | some v => simp [h]
    by_cases hb : b ∈ rest
    · rw [if_pos hb, if_pos (List.mem_cons_of_mem a hb)]
      by_cases hba : b = a
      · subst hba
        rw [key1]
        simp
      · rw [key2 b hba]
    · rw [if_neg hb]
      by_cases hba : b = a
      · subst hba
        rw [key1, if_pos (by simp)]
      · rw [key2 b hba, if_neg (by simp [hba, hb])]

theorem needsSink_false_complete (sts : List DFAState) (al : List String)
    (h : DFA.needsSink sts al = false) :
    ∀ st ∈ sts, ∀ a ∈ al, (lookupTr st.transitions a).isSome := by
  rw [DFA.needsSink, List.any_eq_false] at h
  intro st hst a ha
  have h1 := h st hst
  rw [Bool.not_eq_true, List.any_eq_false] at h1
  have h2 := h1 a ha
  rw [Bool.not_eq_true] at h2
  cases hx : lookupTr st.transitions a with
  | none => rw [hx] at h2; simp at h2
  | some v => simp

theorem ec_empty (sts : List DFAState) (al : List String) (h : al = []) :
    DFA.ensure_complete_transitions sts al = (sts, none) := by
  rw [DFA.ensure_complete_transitions, if_pos h]

theorem ec_nosink (sts : List DFAState) (al : List String) (h1 : al ≠ [])
    (h2 : DFA.needsSink sts al = false) :
    DFA.ensure_complete_transitions sts al = (sts, none) := by
  rw [DFA.ensure_complete_transitions, if_neg h1, if_neg (by simp [h2])]

theorem ec_sink (sts : List DFAState) (al : List String) (h1 : al ≠ [])
    (h2 : DFA.needsSink sts al = true) :
    DFA.ensure_complete_transitions sts al =
      ((sts ++ [({ transitions := al.foldl (fun m a => setTr m a sts.length) [],
                   positive_count := 0, negative_count := 1,
                   accepting := false } : DFAState)]).map fun st : DFAState =>
        { st with transitions :=
            (al.foldl
              (fun m a => if (lookupTr m a).isNone then setTr m a sts.length else m)
              st.transitions) },
       some sts.length) := by
  rw [DFA.ensure_complete_transitions, if_neg h1, if_pos (by simp [h2])]

theorem ec_complete (sts : List DFAState) (al : List String) (hal : al ≠ []) :
    ∀ st ∈ (DFA.ensure_complete_transitions sts al).1, ∀ a ∈ al,
      (lookupTr st.transitions a).isSome := by
  cases h2 : DFA.needsSink sts al with
  | false =>
    rw [ec_nosink sts al hal h2]
    exact needsSink_false_complete sts al h2
  | true =>
    rw [ec_sink sts al hal h2]
    intro st hst a ha
    obtain ⟨st0, _, hfeq⟩ := List.mem_map.mp hst
    rw [← hfeq]
    dsimp only
    rw [lookupTr_foldl_fill]
    simp [ha]

theorem from_pta_some_eq (pta : PTA) (D : DFA) (h : DFA.from_pta pta = some D) :
    D = { states := (DFA.ensure_complete_transitions (DFA.ptaStates pta)
            (DFA.ptaAlphabet pta)).1
          start_state := pta.start_state
          alphabet := DFA.ptaAlphabet pta
          sink_state := (DFA.ensure_complete_transitions (DFA.ptaStates pta)
            (DFA.ptaAlphabet pta)).2 } := by
  rw [DFA.from_pta] at h
  by_cases hv : DFA.ptaValid pta
  · rw [if_pos hv] at h
    injection h with h
    exact h.symm
  · rw [if_neg hv] at h
    exact absurd h (by simp)

theorem from_pta_complete (pta : PTA) (D : DFA) (h : DFA.from_pta pta = some D)
    (hal : D.alphabet ≠ []) : D.Complete := by
  have heq := from_pta_some_eq pta D h
  intro st hst a ha
  rw [heq] at hst ha hal
  exact ec_complete _ _ hal st hst a ha

theorem from_pta_sink_props (pta : PTA) (D : DFA) (k : Nat)
    (h : DFA.from_pta pta = some D) (hk : D.sink_state = some k) :
    k < D.states.length ∧ DFA.accOf D k = false ∧
    (D.states.getD k default).positive_count = 0 ∧
    (D.states.getD k default).negative_count = 1 ∧
    D.alphabet ≠ [] ∧
    ∀ a ∈ D.alphabet, DFA.trOf D k a = some k := by
  have heq := from_pta_some_eq pta D h
  rw [heq] at hk
  simp only [] at hk
  by_cases h1 : DFA.ptaAlphabet pta = []
  · rw [ec_empty _ _ h1] at hk
    simp at hk
  · cases h2 : DFA.needsSink (DFA.ptaStates pta) (DFA.ptaAlphabet pta) with
    | false =>
      rw [ec_nosink _ _ h1 h2] at hk
      simp at hk
    | true =>
      rw [ec_sink _ _ h1 h2] at hk
      simp only [] at hk
      injection hk with hk
      have hstD : D.states = ((DFA.ptaStates pta ++
          [({ transitions := (DFA.ptaAlphabet pta).foldl
                (fun m a => setTr m a (DFA.ptaStates pta).length) [],
              positive_count := 0, negative_count := 1,
              accepting := false } : DFAState)]).map fun st : DFAState =>
          { st with transitions :=
              ((DFA.ptaAlphabet pta).foldl
                (fun m a => if (lookupTr m a).isNone then
                  setTr m a (DFA.ptaStates pta).length else m)
                st.transitions) }) := by
        rw [heq]
        simp only []
        rw [ec_sink _ _ h1 h2]
      have hlen : D.states.length = (DFA.ptaStates pta).length + 1 := by
        rw [hstD]
        simp
      have hklt : k < D.states.length := by omega
      have hget : D.states.getD k default =
          { transitions :=
              (DFA.ptaAlphabet pta).foldl
                (fun m a => if (lookupTr m a).isNone then
                  setTr m a (DFA.ptaStates pta).length else m)
                ((DFA.ptaAlphabet pta).foldl
                  (fun m a => setTr m a (DFA.ptaStates pta).length) []),
            positive_count := 0, negative_count := 1,
            accepting := false } := by
        rw [hstD]
        rw [getD_map_gen _ _ k (by simp; omega) default]
        rw [List.getD_append_right _ _ _ _ (by omega)]
        rw [← hk]
        simp
      refine ⟨hklt, ?_, ?_, ?_, ?_, ?_⟩
      · rw [DFA.accOf, hget]
      · rw [hget]
      · rw [hget]
      · rw [heq]
        simp only []
        exact h1
      · intro a ha
        rw [DFA.trOf, hget]
        dsimp only
        rw [lookupTr_foldl_fill]
        have ha' : a ∈ DFA.ptaAlphabet pta := by rw [heq] at ha; exact ha
        rw [if_pos ha', lookupTr_foldl_setTr, if_pos ha']
        simp [hk]

/-! ### Membership in assoc-list and table folds -/

theorem mem_setTr {β : Type} (l : List (String × β)) (a : String) (t : β)
    (x : String × β) (hx : x ∈ setTr l a t) : x ∈ l ∨ x = (a, t) := by
  induction l with
  | nil => simpa [setTr] using hx
  | cons p rest ih =>
    obtain ⟨b, u⟩ := p
    rw [setTr] at hx
    by_cases hba : b = a
    · rw [if_pos hba] at hx
      rcases List.mem_cons.mp hx with h | h
      · right; rw [h, hba]
      · left; exact List.mem_cons_of_mem _ h
    · rw [if_neg hba] at hx
      rcases List.mem_cons.mp hx with h | h
      · left; rw [h]; exact List.mem_cons_self _ _
      · rcases ih h with h2 | h2
        · left; exact List.mem_cons_of_mem _ h2
        · right; exact h2

theorem mem_foldl_setTr_pairs (ps : List (String × Nat)) :
    ∀ (init : List (String × Nat)) (x : String × Nat),
      x ∈ ps.foldl (fun m p => setTr m p.1 p.2) init →
      x ∈ init ∨ ∃ p ∈ ps, x = (p.1, p.2) := by
  induction ps with
  | nil => intro init x hx; exact Or.inl hx
  | cons p rest ih =>
    intro init x hx
    rw [List.foldl_cons] at hx
    rcases ih _ x hx with h | h
    · rcases mem_setTr init p.1 p.2 x h with h2 | h2
      · exact Or.inl h2
      · exact Or.inr ⟨p, by simp, h2⟩
    · obtain ⟨q, hq, hxq⟩ := h
      exact Or.inr ⟨q, by simp [hq], hxq⟩

theorem mem_foldl_setTr_const (al : List String) (k : Nat) :
    ∀ (init : List (String × Nat)) (x : String × Nat),
      x ∈ al.foldl (fun m a => setTr m a k) init → x ∈ init ∨ x.2 = k := by
  induction al with
  | nil => intro init x hx; exact Or.inl hx
  | cons a rest ih =>
    intro init x hx
    rw [List.foldl_cons] at hx
    rcases ih _ x hx with h | h
    · rcases mem_setTr init a k x h with h2 | h2
      · exact Or.inl h2
      · right; rw [h2]
    · exact Or.inr h

theorem mem_foldl_fill (al : List String) (k : Nat) :
    ∀ (tr : List (String × Nat)) (x : String × Nat),
      x ∈ al.foldl (fun m a => if (lookupTr m a).isNone then setTr m a k else m) tr →
      x ∈ tr ∨ x.2 = k := by
  induction al with
  | nil => intro tr x hx; exact Or.inl hx
  | cons a rest ih =>
    intro tr x hx
    rw [List.foldl_cons] at hx
    rcases ih _ x hx with h | h
    · by_cases hc : (lookupTr tr a).isNone
      · rw [if_pos hc] at h
        rcases mem_setTr tr a k x h with h2 | h2
        · exact Or.inl h2
        · right; rw [h2]
      · rw [if_neg hc] at h
        exact Or.inl h
    · exact Or.inr h

theorem mem_foldl_set_general {α β : Type} (g : β → α) (f : β → Nat) :
    ∀ (l : List β) (init : List α) (x : α),
      x ∈ l.foldl (fun st n => st.set (f n) (g n)) init →
      x ∈ init ∨ ∃ n ∈ l, x = g n := by
  intro l
  induction l with
  | nil => intro init x hx; exact Or.inl hx
  | cons n rest ih =>
    intro init x hx
    rw [List.foldl_cons] at hx
    rcases ih _ x hx with h | h
    · rcases List.mem_or_eq_of_mem_set h with h2 | h2
      · exact Or.inl h2
      · exact Or.inr ⟨n, by simp, h2⟩
    · obtain ⟨m, hm, hxm⟩ := h
      exact Or.inr ⟨m, by simp [hm], hxm⟩

theorem foldl_set_length {α β : Type} (f : β → Nat) (g : β → α) :
    ∀ (l : List β) (init : List α),
      (l.foldl (fun st n => st.set (f n) (g n)) init).length = init.length := by
  intro l
  induction l with
  | nil => intro init; rfl
  | cons n rest ih =>
    intro init
    rw [List.foldl_cons, ih, List.length_set]

theorem ptaStates_length (pta : PTA) :
    (DFA.ptaStates pta).length = pta.nodes.length := by
  rw [DFA.ptaStates, foldl_set_length PTANode.id DFA.stateOfNode, List.length_replicate]

theorem mem_ptaStates (pta : PTA) (st : DFAState) (hst : st ∈ DFA.ptaStates pta) :
    st = default ∨ ∃ n ∈ pta.nodes, st = DFA.stateOfNode n := by
  rcases mem_foldl_set_general DFA.stateOfNode PTANode.id pta.nodes _ st hst with h | h
  · left; exact List.eq_of_mem_replicate h
  · right; exact h

/-! ### `from_pta` establishes the DFA invariants -/

theorem ptaStates_majority (pta : PTA) :
    ∀ st ∈ DFA.ptaStates pta,
      st.accepting = decide (st.positive_count > st.negative_count) := by
  intro st hst
  rcases mem_ptaStates pta st hst with h | ⟨n, _, h⟩
  · rw [h]; rfl
  · rw [h]; rfl

theorem from_pta_majority (pta : PTA) (D : DFA) (h : DFA.from_pta pta = some D) :
    D.MajorityAcc := by
  have heq := from_pta_some_eq pta D h
  intro st hst
  rw [heq] at hst
  by_cases h1 : DFA.ptaAlphabet pta = []
  · rw [ec_empty _ _ h1] at hst
    exact ptaStates_majority pta st hst
  · cases h2 : DFA.needsSink (DFA.ptaStates pta) (DFA.ptaAlphabet pta) with
    | false =>
      rw [ec_nosink _ _ h1 h2] at hst
      exact ptaStates_majority pta st hst
    | true =>
      rw [ec_sink _ _ h1 h2] at hst
      obtain ⟨st0, hst0, hfeq⟩ := List.mem_map.mp hst
      rcases List.mem_append.mp hst0 with h3 | h3
      · have hm := ptaStates_majority pta st0 h3
        rw [← hfeq]
        exact hm
      · have h4 := List.mem_singleton.mp h3
        rw [← hfeq, h4]
        rfl

theorem from_pta_valid (pta : PTA) (D : DFA) (h : DFA.from_pta pta = some D) :
    DFA.ptaValid pta = true := by
  rw [DFA.from_pta] at h
  by_cases hv : DFA.ptaValid pta
  · exact hv
  · rw [if_neg hv] at h
    exact absurd h (by simp)

theorem ptaStates_trans_lt (pta : PTA) (hv : DFA.ptaValid pta = true) :
    ∀ st ∈ DFA.ptaStates pta, ∀ pr ∈ st.transitions,
      pr.2 < pta.nodes.length := by
  intro st hst pr hpr
  rcases mem_ptaStates pta st hst with h | ⟨n, hn, h⟩
  · rw [h] at hpr
    have hdef : (default : DFAState).transitions = [] := rfl
    rw [hdef] at hpr
    simp at hpr
  · rw [h] at hpr
    have hpr' : pr ∈ n.transitions.foldl (fun m p => setTr m p.1 p.2) [] := hpr
    rcases mem_foldl_setTr_pairs n.transitions [] pr hpr' with h2 | ⟨p, hp, h2⟩
    · simp at h2
    · rw [DFA.ptaValid, List.all_eq_true] at hv
      have hvn := hv n hn
      rw [Bool.and_eq_true] at hvn
      have h3 := hvn.2
      rw [List.all_eq_true] at h3
      have h4 := of_decide_eq_true (h3 p hp)
      rw [h2]
      exact h4

theorem ec_length_ge (sts : List DFAState) (al : List String) :
    sts.length ≤ (DFA.ensure_complete_transitions sts al).1.length := by
  by_cases h1 : al = []
  · rw [ec_empty _ _ h1]
  · cases h2 : DFA.needsSink sts al with
    | false => rw [ec_nosink _ _ h1 h2]
    | true =>
      rw [ec_sink _ _ h1 h2]
      simp

theorem from_pta_inBounds (pta : PTA) (D : DFA) (h : DFA.from_pta pta = some D)
    (hstart : pta.start_state < pta.nodes.length) : D.InBounds := by
  have heq := from_pta_some_eq pta D h
  have hv := from_pta_valid pta D h
  have hlenP := ptaStates_length pta
  have htr := ptaStates_trans_lt pta hv
  have hsl : D.start_state = pta.start_state := by rw [heq]
  have hstD : D.states = (DFA.ensure_complete_transitions (DFA.ptaStates pta)
      (DFA.ptaAlphabet pta)).1 := by rw [heq]
  constructor
  · rw [hsl, hstD]
    have := ec_length_ge (DFA.ptaStates pta) (DFA.ptaAlphabet pta)
    omega
  · intro st hst pr hpr
    rw [hstD] at hst ⊢
    by_cases h1 : DFA.ptaAlphabet pta = []
    · rw [ec_empty _ _ h1] at hst ⊢
      have := htr st hst pr hpr
      show pr.2 < (DFA.ptaStates pta).length
      omega
    · cases h2 : DFA.needsSink (DFA.ptaStates pta) (DFA.ptaAlphabet pta) with
      | false =>
        rw [ec_nosink _ _ h1 h2] at hst ⊢
        have := htr st hst pr hpr
        show pr.2 < (DFA.ptaStates pta).length
        omega
      | true =>
        rw [ec_sink _ _ h1 h2] at hst ⊢
        simp only [List.length_map, List.length_append, List.length_singleton]
        obtain ⟨st0, hst0, hfeq⟩ := List.mem_map.mp hst
        rw [← hfeq] at hpr
        have hpr' : pr ∈ (DFA.ptaAlphabet pta).foldl
            (fun m a => if (lookupTr m a).isNone then
              setTr m a (DFA.ptaStates pta).length else m) st0.transitions := hpr
        rcases mem_foldl_fill _ _ st0.transitions pr hpr' with h3 | h3
        · rcases List.mem_append.mp hst0 with h4 | h4
          · have := htr st0 h4 pr h3
            omega
          · have h5 := List.mem_singleton.mp h4
            rw [h5] at h3
            have h3' : pr ∈ (DFA.ptaAlphabet pta).foldl
                (fun m a => setTr m a (DFA.ptaStates pta).length) [] := h3
            rcases mem_foldl_setTr_const _ _ [] pr h3' with h6 | h6
            · simp at h6
            · omega
        · omega

theorem from_pta_complete_all (pta : PTA) (D : DFA) (h : DFA.from_pta pta = some D) :
    D.Complete := by
  by_cases hal : D.alphabet = []
  · intro st _ a ha
    rw [hal] at ha
    simp at ha
  · exact from_pta_complete pta D h hal

/-! ### The sink block of the minimized DFA -/

theorem minimize_sink_chars (D : DFA) (hib : D.InBounds) (hmaj : D.MajorityAcc)
    (hcomp : D.Complete) (k : Nat) (hks : D.sink_state = some k)
    (hklt : k < D.states.length) (hacc : DFA.accOf D k = false)
    (hloop : ∀ a ∈ D.alphabet, DFA.trOf D k a = some k) :
    ∀ k', (D.minimize).sink_state = some k' →
      DFA.accOf D.minimize k' = false ∧
      ∀ a ∈ (D.minimize).alphabet, DFA.trOf D.minimize k' a = some k' := by
  intro k' hk'
  have hne : D.states ≠ [] := by
    intro h0
    rw [h0] at hklt
    simp at hklt
  obtain ⟨hwf, huni, hsound, hstab⟩ := minimize_parts_spec D hib hcomp hne
  rw [minimize_eq_rebuild D hne] at hk' ⊢
  set parts := refine D ((2 * D.states.length + 2) * D.alphabet.length + 1)
    (initialParts D) (initialQueue D (initialParts D)) with hparts
  have hk'eq : (rebuild D parts).sink_state =
      if k < D.states.length then some ((blockIdx parts k).getD 0) else none := by
    show (match D.sink_state with
      | some j => if j < D.states.length then some ((blockIdx parts j).getD 0) else none
      | none => none) = _
    rw [hks]
  rw [hk'eq, if_pos hklt] at hk'
  injection hk' with hk'
  obtain ⟨i, hbi, hilen, hkmem⟩ := PartWF_blockIdx D parts hwf k hklt
  rw [hbi] at hk'
  simp only [Option.getD_some] at hk'
  subst hk'
  constructor
  · rw [rebuild_accOf D parts hmaj hwf huni i hilen k hkmem]
    exact hacc
  · intro a ha
    rw [rebuild_alphabet] at ha
    rw [rebuild_trOf D parts i a hilen]
    have hrep : (parts.getD i []).headD 0 ∈ parts.getD i [] :=
      headD_mem _ 0 (hwf.2 _ (getD_mem parts i hilen))
    have hreplt : (parts.getD i []).headD 0 < D.states.length :=
      PartWF_lt_of_mem D parts hwf _ i hilen hrep
    have hrsome := trOf_isSome D hcomp _ hreplt a ha
    cases hru : DFA.trOf D ((parts.getD i []).headD 0) a with
    | none =>
      rw [hru] at hrsome
      simp at hrsome
    | some u =>
      have hbuk : blockIdx parts u = blockIdx parts k :=
        hstab a ha _ (getD_mem parts i hilen) _ hrep k hkmem u k hru (hloop a ha)
      show some ((blockIdx parts u).getD 0) = some i
      rw [hbuk, hbi]
      rfl

/-! ### Claims C2 to C5 -/

/-- C2 (amended): for every in-bounds, complete DFA whose accepting
flags agree with the strict majority of its stored counts, minimization
preserves classification on every word over the alphabet. -/
theorem claim_C2_minimize_preserves_classify (D : DFA) (hib : D.InBounds)
    (hmaj : D.MajorityAcc) (hcomp : D.Complete) (w : List String)
    (hw : ∀ x ∈ w, x ∈ D.alphabet) :
    (D.minimize).classify w = D.classify w :=
  minimize_classify_eq D hib hmaj hcomp w hw

/-- C2 counterexample: `badD` is in bounds and complete, yet `minimize`
flips the classification of the empty word, because the rebuild step
recomputes acceptance from the stored counts (which contradict the
accepting flag of `badD`). -/
theorem claim_C2_counterexample :
    badD.InBounds ∧ badD.Complete ∧
    badD.classify [] = true ∧ badD.minimize.classify [] = false :=
  ⟨by decide, by decide, by decide, by decide⟩

/-- C2 witness at the learnt DFA `dfaS1` and the word `["x"]`. -/
theorem claim_C2_witness :
    dfaS1.minimize.classify ["x"] = dfaS1.classify ["x"] :=
  claim_C2_minimize_preserves_classify dfaS1 (by decide) (by decide) (by decide)
    ["x"] (by decide)

/-- C3 (amended): for every in-bounds, complete DFA whose accepting
flags agree with the strict majority of its stored counts, minimization
is idempotent on the state count. -/
theorem claim_C3_minimize_idempotent (D : DFA) (hib : D.InBounds)
    (hmaj : D.MajorityAcc) (hcomp : D.Complete) :
    D.minimize.minimize.states.length = D.minimize.states.length :=
  minimize_minimize_length D hib hmaj hcomp

/-- C3 counterexample: `badD2` is in bounds and complete, but its
accepting flags contradict its counts; the first minimization keeps its
two states while resetting both flags, and the second merges them. -/
theorem claim_C3_counterexample :
    badD2.InBounds ∧ badD2.Complete ∧
    badD2.minimize.states.length = 2 ∧
    badD2.minimize.minimize.states.length = 1 :=
  ⟨by decide, by decide, by decide, by decide⟩

/-- C3 witness at the learnt DFA `dfaS1`. -/
theorem claim_C3_witness :
    dfaS1.minimize.minimize.states.length = dfaS1.minimize.states.length :=
  claim_C3_minimize_idempotent dfaS1 (by decide) (by decide) (by decide)

/-- C4: a successful `from_pta` (its bounds checks passed) with a
non-empty collected alphabet yields a DFA in which every state has a
transition on every alphabet symbol. -/
theorem claim_C4_from_pta_complete (pta : PTA) (D : DFA)
    (h : DFA.from_pta pta = some D) (hal : D.alphabet ≠ []) :
    ∀ st ∈ D.states, ∀ a ∈ D.alphabet, (lookupTr st.transitions a).isSome :=
  from_pta_complete pta D h hal

/-- C4 witness: the learnt DFA `dfaS1`, instantiated at its start state
and the symbol `"x"`. -/
theorem claim_C4_witness :
    (lookupTr (dfaS1.states.getD 0 default).transitions "x").isSome :=
  claim_C4_from_pta_complete (PTA.build samplesS1) dfaS1 (by decide)
    (by decide) (dfaS1.states.getD 0 default) (by decide) "x" (by decide)

/-- C5: in a DFA produced by `from_pta` (under the start-state bound the
C++ asserts) and in its minimization, any existing sink state is
non-accepting and maps to itself on every alphabet symbol. -/
theorem claim_C5_sink_invariant (pta : PTA) (D : DFA)
    (h : DFA.from_pta pta = some D)
    (hstart : pta.start_state < pta.nodes.length) :
    (∀ k, D.sink_state = some k →
      DFA.accOf D k = false ∧ ∀ a ∈ D.alphabet, DFA.trOf D k a = some k) ∧
    (∀ k, (D.minimize).sink_state = some k →
      DFA.accOf D.minimize k = false ∧
      ∀ a ∈ (D.minimize).alphabet, DFA.trOf D.minimize k a = some k) := by
  constructor
  · intro k hk
    obtain ⟨_, hacc, _, _, _, hloop⟩ := from_pta_sink_props pta D k h hk
    exact ⟨hacc, hloop⟩
  · intro k' hk'
    cases hks : D.sink_state with
    | none =>
      exfalso
      by_cases hne : D.states = []
      · rw [DFA.minimize, if_pos hne, hks] at hk'
        exact Option.noConfusion hk'
      · rw [minimize_eq_rebuild D hne] at hk'
        have hnone : (rebuild D (refine D
            ((2 * D.states.length + 2) * D.alphabet.length + 1)
            (initialParts D) (initialQueue D (initialParts D)))).sink_state = none := by
          show (match D.sink_state with
            | some j => if j < D.states.length then
                some ((blockIdx (refine D
                  ((2 * D.states.length + 2) * D.alphabet.length + 1)
                  (initialParts D) (initialQueue D (initialParts D))) j).getD 0)
              else none
            | none => none) = none
          rw [hks]
        rw [hnone] at hk'
        exact Option.noConfusion hk'
    | some k =>
      obtain ⟨hklt, hacc, _, _, _, hloop⟩ := from_pta_sink_props pta D k h hks
      exact minimize_sink_chars D (from_pta_inBounds pta D h hstart)
        (from_pta_majority pta D h) (from_pta_complete_all pta D h)
        k hks hklt hacc hloop k' hk'

/-- C5 witness: `dfaS1` has sink state 3 and its minimization has sink
state 2; both are non-accepting and loop to themselves on `"x"`. -/
theorem claim_C5_witness :
    DFA.accOf dfaS1 3 = false ∧ DFA.trOf dfaS1 3 "x" = some 3 ∧
    DFA.accOf dfaS1.minimize 2 = false ∧
    DFA.trOf dfaS1.minimize 2 "x" = some 2 := by
  have h := claim_C5_sink_invariant (PTA.build samplesS1) dfaS1 (by decide) (by decide)
  exact ⟨(h.1 3 (by decide)).1, (h.1 3 (by decide)).2 "x" (by decide),
         (h.2 2 (by decide)).1, (h.2 2 (by decide)).2 "x" (by decide)⟩

/-! ### The grammar classifier (claims C7 and C1) -/

theorem cwrGo_failure (g : GrammarDFA) :
    ∀ (seq : List String) (cur i j c : Nat) (sym : String),
      GrammarDFA.firstFailure g cur i seq = some (j, c, sym) →
      GrammarDFA.cwrGo g cur i seq =
        (false, GrammarDFA.reasonNoTransition sym (g.names.getD c "") j) := by
  intro seq
  induction seq with
  | nil =>
    intro cur i j c sym h
    simp [GrammarDFA.firstFailure] at h
  | cons a rest ih =>
    intro cur i j c sym h
    rw [GrammarDFA.firstFailure] at h
    rw [GrammarDFA.cwrGo]
    cases hl : lookupTr (g.trans.getD cur []) a with
    | none =>
      rw [hl] at h
      simp only [Option.some.injEq, Prod.mk.injEq] at h
      obtain ⟨h1, h2, h3⟩ := h
      subst h1
      subst h2
      subst h3
      rfl
    | some t =>
      rw [hl] at h
      exact ih t (i + 1) j c sym h

theorem cwrGo_success (g : GrammarDFA) :
    ∀ (seq : List String) (cur i fin : Nat),
      GrammarDFA.walkStates g cur seq = some fin →
      GrammarDFA.cwrGo g cur i seq =
        (if g.accepting.getD fin false then (true, "accepted")
         else (false, GrammarDFA.reasonNonAccepting (g.names.getD fin ""))) := by
  intro seq
  induction seq with
  | nil =>
    intro cur i fin h
    rw [GrammarDFA.walkStates] at h
    injection h with h
    subst h
    rfl
  | cons a rest ih =>
    intro cur i fin h
    rw [GrammarDFA.walkStates] at h
    rw [GrammarDFA.cwrGo]
    cases hl : lookupTr (g.trans.getD cur []) a with
    | none =>
      rw [hl] at h
      exact absurd h (by simp)
    | some t =>
      rw [hl] at h
      exact ih t (i + 1) fin h

/-- C7: the four result cases of `classify_with_reason`: the empty
grammar, the first missing transition (with its position, source-state
name and symbol in the reason), and completion in a non-accepting or an
accepting state. -/
theorem claim_C7_classify_cases (g : GrammarDFA) (seq : List String) :
    (g.names = [] → g.classify_with_reason seq = (false, "empty grammar")) ∧
    (g.names ≠ [] →
      (∀ (j c : Nat) (sym : String),
        GrammarDFA.firstFailure g g.start 0 seq = some (j, c, sym) →
        g.classify_with_reason seq =
          (false, GrammarDFA.reasonNoTransition sym (g.names.getD c "") j)) ∧
      (∀ fin, GrammarDFA.walkStates g g.start seq = some fin →
        g.classify_with_reason seq =
          (if g.accepting.getD fin false then (true, "accepted")
           else (false, GrammarDFA.reasonNonAccepting (g.names.getD fin ""))))) := by
  refine ⟨?_, fun hne => ⟨?_, ?_⟩⟩
  · intro h0
    rw [GrammarDFA.classify_with_reason, if_pos h0]
  · intro j c sym h
    rw [GrammarDFA.classify_with_reason, if_neg hne]
    exact cwrGo_failure g seq g.start 0 j c sym h
  · intro fin h
    rw [GrammarDFA.classify_with_reason, if_neg hne]
    exact cwrGo_success g seq g.start 0 fin h

/-- C7 witness: all four cases exercised on concrete grammar tables. -/
theorem claim_C7_witness :
    ({} : GrammarDFA).classify_with_reason ["x"] = (false, "empty grammar") ∧
    gS1.classify_with_reason ["z"] =
      (false, GrammarDFA.reasonNoTransition "z" "S" 0) ∧
    gS1.classify_with_reason ["x"] =
      (false, GrammarDFA.reasonNonAccepting "A0") ∧
    (load_cnf_grammar ["S -> ε"]).classify_with_reason [] = (true, "accepted") := by
  refine ⟨?_, ?_, ?_, ?_⟩
  · exact (claim_C7_classify_cases {} ["x"]).1 (by decide)
  · have h := ((claim_C7_classify_cases gS1 ["z"]).2 (by decide)).1 0 1 "z" (by decide)
    rw [h]
    decide
  · have h := ((claim_C7_classify_cases gS1 ["x"]).2 (by decide)).2 0 (by decide)
    rw [h]
    decide
  · have h := ((claim_C7_classify_cases (load_cnf_grammar ["S -> ε"]) []).2
      (by decide)).2 0 (by decide)
    rw [h]
    decide

/-- C1 (code bug): the CNF round trip loses acceptance.  The export of
the minimized scenario-S1 DFA writes the rule
`S -> T0 A0 | T1 A1 | x`; the loader applies the unit-terminal
alternative `x` (a transition into `Accept`) before the binary
alternative `T0 A0` on the same terminal, and `add_transition`
overwrites, so the loaded automaton rejects `["x"]` although the DFA
accepts it. -/
theorem claim_C1_roundtrip_bug :
    "x" ∈ minS1.alphabet ∧ minS1.classify ["x"] = true ∧
    ((load_cnf_grammar (DFA.to_chomsky_lines minS1)).classify_with_reason ["x"]).1
      = false :=
  ⟨by decide, by decide, by decide⟩

/-! ### The epsilon production of the CNF export (claim C6) -/

theorem string_append_ne_of_head (a t b : String) (ca cb : Char)
    (ha : a.data = [ca]) (hb : b.data = [cb]) (hne : ca ≠ cb) : a ++ t ≠ b := by
  intro h
  have hd := congrArg String.data h
  rw [String.data_append, ha, hb] at hd
  rw [List.cons_append, List.nil_append] at hd
  injection hd with h1 h2
  exact hne h1

theorem quote_eq_eps (s : String) (h : DFA.quote s = "ε") : s = "ε" := by
  rw [DFA.quote] at h
  by_cases h1 : s = ""
  · rw [if_pos h1] at h
    exact absurd h (by decide)
  · rw [if_neg h1] at h
    by_cases h2 : DFA.needQuote s
    · rw [if_pos h2] at h
      rw [String.append_assoc] at h
      exact absurd h (string_append_ne_of_head "\"" _ "ε" '"' 'ε' rfl rfl (by decide))
    · rw [if_neg h2] at h
      exact h

theorem indexOfStr_mem (l : List String) (a : String) :
    ∀ k, indexOfStr l a = some k → a ∈ l := by
  induction l with
  | nil => intro k h; simp [indexOfStr] at h
  | cons b rest ih =>
    intro k h
    rw [indexOfStr] at h
    by_cases hb : b = a
    · rw [hb]
      exact List.mem_cons_self _ _
    · rw [if_neg hb] at h
      cases hr : indexOfStr rest a with
      | none => rw [hr] at h; simp at h
      | some j => exact List.mem_cons_of_mem _ (ih j hr)

theorem mem_chomskyBase (D : DFA) (l : List (String × Nat)) :
    ∀ (acc : List String) (x : String),
      x ∈ l.foldl
        (fun acc pr =>
          match indexOfStr D.alphabet pr.1 with
          | none => acc
          | some k =>
            let acc1 := sortedInsert ("T" ++ toString k ++ " " ++ DFA.nameForState D pr.2) acc
            if pr.2 < D.states.length ∧ (D.states.getD pr.2 default).accepting then
              sortedInsert (DFA.quote pr.1) acc1
            else acc1)
        acc →
      x ∈ acc ∨ ∃ pr ∈ l, ∃ k, indexOfStr D.alphabet pr.1 = some k ∧
        (x = "T" ++ toString k ++ " " ++ DFA.nameForState D pr.2 ∨ x = DFA.quote pr.1) := by
  induction l with
  | nil => intro acc x hx; exact Or.inl hx
  | cons pr rest ih =>
    intro acc x hx
    rw [List.foldl_cons] at hx
    rcases ih _ x hx with h | h
    · cases hidx : indexOfStr D.alphabet pr.1 with
      | none =>
        rw [hidx] at h
        exact Or.inl h
      | some k =>
        rw [hidx] at h
        have h' : x ∈ (if pr.2 < D.states.length ∧ (D.states.getD pr.2 default).accepting
            then sortedInsert (DFA.quote pr.1)
              (sortedInsert ("T" ++ toString k ++ " " ++ DFA.nameForState D pr.2) acc)
            else sortedInsert ("T" ++ toString k ++ " " ++ DFA.nameForState D pr.2) acc) := h
        by_cases hacc2 : pr.2 < D.states.length ∧ (D.states.getD pr.2 default).accepting
        · rw [if_pos hacc2] at h'
          rcases (mem_sortedInsert _ _ _).mp h' with h1 | h1
          · exact Or.inr ⟨pr, by simp, k, hidx, Or.inr h1⟩
          · rcases (mem_sortedInsert _ _ _).mp h1 with h2 | h2
            · exact Or.inr ⟨pr, by simp, k, hidx, Or.inl h2⟩
            · exact Or.inl h2
        · rw [if_neg hacc2] at h'
          rcases (mem_sortedInsert _ _ _).mp h' with h1 | h1
          · exact Or.inr ⟨pr, by simp, k, hidx, Or.inl h1⟩
          · exact Or.inl h1
    · obtain ⟨pr', hpr', k, hk, hx'⟩ := h
      exact Or.inr ⟨pr', by simp [hpr'], k, hk, hx'⟩

/-- C6 (amended): provided the literal string `"ε"` is not itself an
alphabet terminal (the spec itself flags this collision) and the start
state is in bounds, the `ε` alternative appears among the CNF
productions of the start nonterminal exactly when the start state is
accepting. -/
theorem claim_C6_epsilon_iff (D : DFA) (hsb : D.start_state < D.states.length)
    (heps : "ε" ∉ D.alphabet) :
    "ε" ∈ DFA.chomskyOpts D D.start_state ↔ DFA.accOf D D.start_state = true := by
  constructor
  · intro hmem
    simp only [DFA.chomskyOpts] at hmem
    by_cases hc : (D.states.getD D.start_state default).accepting = true
    · exact hc
    · rw [if_neg (fun hcond => hc hcond.2.1)] at hmem
      rcases mem_chomskyBase D _ [] "ε" hmem with h | ⟨pr, _, k, hk, hx | hx⟩
      · simp at h
      · rw [String.append_assoc, String.append_assoc] at hx
        exact absurd hx.symm
          (string_append_ne_of_head "T" _ "ε" 'T' 'ε' rfl rfl (by decide))
      · have hpr1 : pr.1 = "ε" := quote_eq_eps pr.1 hx.symm
        have : pr.1 ∈ D.alphabet := indexOfStr_mem D.alphabet pr.1 k hk
        rw [hpr1] at this
        exact absurd this heps
  · intro hacc
    simp only [DFA.chomskyOpts]
    rw [if_pos ⟨hsb, hacc, trivial⟩]
    exact (mem_sortedInsert "ε" "ε" _).mpr (Or.inl rfl)

/-- C6 counterexample: `dfaEps` has alphabet `["ε"]` and a non-accepting
start state, yet the `ε` alternative appears in the productions of its
start nonterminal (it is the quoted literal terminal `"ε"`). -/
theorem claim_C6_counterexample :
    DFA.accOf dfaEps dfaEps.start_state = false ∧
    "ε" ∈ DFA.chomskyOpts dfaEps dfaEps.start_state :=
  ⟨by decide, by decide⟩

/-- C6 witness: a positive and a negative instance of the amended
equivalence. -/
theorem claim_C6_witness :
    "ε" ∈ DFA.chomskyOpts dfaE0 dfaE0.start_state ∧
    "ε" ∉ DFA.chomskyOpts dfaS1 dfaS1.start_state := by
  constructor
  · exact (claim_C6_epsilon_iff dfaE0 (by decide) (by decide)).mpr (by decide)
  · intro hmem
    exact absurd ((claim_C6_epsilon_iff dfaS1 (by decide) (by decide)).mp hmem)
      (by decide)

/-! ### The pseudo-negative count of the sink (claim C9) -/

theorem mem_le_sum (l : List Nat) (f : Nat → Nat) : ∀ x ∈ l, f x ≤ (l.map f).sum := by
  induction l with
  | nil => intro x hx; simp at hx
  | cons a rest ih =>
    intro x hx
    rcases List.mem_cons.mp hx with h | h
    · subst h
      simp only [List.map_cons, List.sum_cons]
      omega
    · have := ih x h
      simp only [List.map_cons, List.sum_cons]
      omega

theorem minimize_sink_none (D : DFA) (hks : D.sink_state = none) :
    (D.minimize).sink_state = none := by
  by_cases hne : D.states = []
  · rw [DFA.minimize, if_pos hne]
    exact hks
  · rw [minimize_eq_rebuild D hne]
    show (match D.sink_state with
      | some j => if j < D.states.length then
          some ((blockIdx (refine D ((2 * D.states.length + 2) * D.alphabet.length + 1)
            (initialParts D) (initialQueue D (initialParts D))) j).getD 0)
        else none
      | none => none) = none
    rw [hks]

theorem minimize_sink_negcount (D : DFA) (hib : D.InBounds) (hcomp : D.Complete)
    (k : Nat) (hks : D.sink_state = some k) (hklt : k < D.states.length)
    (hneg : 1 ≤ (D.states.getD k default).negative_count) :
    ∀ k', (D.minimize).sink_state = some k' →
      1 ≤ ((D.minimize).states.getD k' default).negative_count := by
  intro k' hk'
  have hne : D.states ≠ [] := by
    intro h0
    rw [h0] at hklt
    simp at hklt
  obtain ⟨hwf, _, _, _⟩ := minimize_parts_spec D hib hcomp hne
  rw [minimize_eq_rebuild D hne] at hk' ⊢
  set parts := refine D ((2 * D.states.length + 2) * D.alphabet.length + 1)
    (initialParts D) (initialQueue D (initialParts D)) with hparts
  have hk'eq : (rebuild D parts).sink_state =
      if k < D.states.length then some ((blockIdx parts k).getD 0) else none := by
    show (match D.sink_state with
      | some j => if j < D.states.length then some ((blockIdx parts j).getD 0) else none
      | none => none) = _
    rw [hks]
  rw [hk'eq, if_pos hklt] at hk'
  injection hk' with hk'
  obtain ⟨i, hbi, hilen, hkmem⟩ := PartWF_blockIdx D parts hwf k hklt
  rw [hbi] at hk'
  simp only [Option.getD_some] at hk'
  subst hk'
  rw [rebuild_stateAt D parts i hilen]
  have h2 : (D.states.getD k default).negative_count ≤
      ((parts.getD i []).map fun s => (D.states.getD s default).negative_count).sum :=
    mem_le_sum (parts.getD i []) (fun s => (D.states.getD s default).negative_count) k hkmem
  dsimp only
  omega

/-- C9: the appended sink carries `positive_count = 0` and
`negative_count = 1` — one pseudo-negative matching no training
sample — and the minimized block containing the sink carries the summed
counts of its members, hence at least that one pseudo-negative. -/
theorem claim_C9_sink_counts (pta : PTA) (D : DFA) (h : DFA.from_pta pta = some D)
    (hstart : pta.start_state < pta.nodes.length) :
    (∀ k, D.sink_state = some k →
      (D.states.getD k default).positive_count = 0 ∧
      (D.states.getD k default).negative_count = 1) ∧
    (∀ k', (D.minimize).sink_state = some k' →
      1 ≤ ((D.minimize).states.getD k' default).negative_count) := by
  constructor
  · intro k hk
    obtain ⟨_, _, hpos, hneg, _, _⟩ := from_pta_sink_props pta D k h hk
    exact ⟨hpos, hneg⟩
  · intro k' hk'
    cases hks : D.sink_state with
    | none =>
      rw [minimize_sink_none D hks] at hk'
      exact Option.noConfusion hk'
    | some k =>
      obtain ⟨hklt, _, _, hneg, _, _⟩ := from_pta_sink_props pta D k h hks
      exact minimize_sink_negcount D (from_pta_inBounds pta D h hstart)
        (from_pta_complete_all pta D h) k hks hklt (by omega) k' hk'

/-- C9 witness: in scenario S1 the sink (state 3) has counts (0, 1) and
the minimized block holding it (state 2) has a positive negative
count. -/
theorem claim_C9_witness :
    (dfaS1.states.getD 3 default).positive_count = 0 ∧
    (dfaS1.states.getD 3 default).negative_count = 1 ∧
    1 ≤ ((dfaS1.minimize).states.getD 2 default).negative_count := by
  have h := claim_C9_sink_counts (PTA.build samplesS1) dfaS1 (by decide) (by decide)
  exact ⟨(h.1 3 (by decide)).1, (h.1 3 (by decide)).2, h.2 2 (by decide)⟩

/-! ### The PDA simulator (claim C8) -/

theorem simLoop_nil (pda : PDA) (input : List String) (fuel bc : Nat)
    (bt : List PDAStep) (dq : Nat) :
    simLoop pda input fuel [] bc bt dq = ({ ok := false, steps := bt }, dq) := by
  cases fuel <;> rfl

theorem simLoop_zero (pda : PDA) (input : List String) (current : SimulationState)
    (rest : List SimulationState) (bc : Nat) (bt : List PDAStep) (dq : Nat) :
    simLoop pda input 0 (current :: rest) bc bt dq =
      ({ ok := false, steps := bt }, dq) := rfl

theorem simLoop_succ_eq (pda : PDA) (input : List String) (fuel : Nat)
    (current : SimulationState) (rest : List SimulationState) (bc : Nat)
    (bt : List PDAStep) (dq : Nat) :
    simLoop pda input (fuel + 1) (current :: rest) bc bt dq =
      if current.input_idx = input.length ∧
          (pda.states.getD current.state_idx default).accepting then
        ({ ok := true, steps := current.trace }, dq + 1)
      else
        simLoop pda input fuel
          (rest ++ (pda.states.getD current.state_idx default).transitions.filterMap
            (applyPDATransition pda input current))
          (if bc < current.input_idx then (current.input_idx, current.trace)
           else (bc, bt)).1
          (if bc < current.input_idx then (current.input_idx, current.trace)
           else (bc, bt)).2
          (dq + 1) := rfl

theorem simLoop_dequeues_le (pda : PDA) (input : List String) :
    ∀ (fuel : Nat) (queue : List SimulationState) (bc : Nat) (bt : List PDAStep)
      (dq : Nat), (simLoop pda input fuel queue bc bt dq).2 ≤ dq + fuel := by
  intro fuel
  induction fuel with
  | zero =>
    intro queue bc bt dq
    cases queue with
    | nil =>
      rw [simLoop_nil]
      show dq ≤ dq + 0
      omega
    | cons c rest =>
      rw [simLoop_zero]
      show dq ≤ dq + 0
      omega
  | succ n ih =>
    intro queue bc bt dq
    cases queue with
    | nil =>
      rw [simLoop_nil]
      show dq ≤ dq + (n + 1)
      omega
    | cons current rest =>
      rw [simLoop_succ_eq]
      by_cases hacc : current.input_idx = input.length ∧
          (pda.states.getD current.state_idx default).accepting
      · rw [if_pos hacc]
        show dq + 1 ≤ dq + (n + 1)
        omega
      · rw [if_neg hacc]
        have := ih (rest ++ (pda.states.getD current.state_idx default).transitions.filterMap
            (applyPDATransition pda input current))
          (if bc < current.input_idx then (current.input_idx, current.trace)
           else (bc, bt)).1
          (if bc < current.input_idx then (current.input_idx, current.trace)
           else (bc, bt)).2
          (dq + 1)
        omega

theorem traceConsumed_append (a b : List PDAStep) :
    traceConsumed (a ++ b) = traceConsumed a + traceConsumed b := by
  rw [traceConsumed, traceConsumed, traceConsumed, List.filter_append,
    List.length_append]

theorem traceConsumed_singleton (st : PDAStep) :
    traceConsumed [st] = if st.symbol ≠ "ε" then 1 else 0 := by
  by_cases h : st.symbol = "ε"
  · simp [traceConsumed, h]
  · simp [traceConsumed, h]

theorem applyPDA_shape (pda : PDA) (input : List String)
    (current next : SimulationState) (trans : PDATransition)
    (h : applyPDATransition pda input current trans = some next) :
    ∃ step : PDAStep,
      next.trace = current.trace ++ [step] ∧
      ((step.symbol ≠ "ε" ∧ next.input_idx = current.input_idx + 1 ∧
          current.input_idx < input.length) ∨
       (step.symbol = "ε" ∧ next.input_idx = current.input_idx)) := by
  simp only [applyPDATransition] at h
  by_cases hm : (trans.input_symbol = "ε" ∨
      (trans.input_symbol ≠ "ε" ∧ current.input_idx < input.length ∧
        trans.input_symbol = input.getD current.input_idx "")) ∧
      (trans.pop_symbol = "ε" ∨
        (current.stack ≠ [] ∧ current.stack.getLast? = some trans.pop_symbol))
  · rw [if_pos hm] at h
    injection h with h
    subst h
    refine ⟨_, rfl, ?_⟩
    by_cases hcons : trans.input_symbol ≠ "ε" ∧ current.input_idx < input.length ∧
        trans.input_symbol = input.getD current.input_idx ""
    · left
      refine ⟨?_, ?_, hcons.2.1⟩
      · show (if trans.input_symbol ≠ "ε" ∧ current.input_idx < input.length ∧
            trans.input_symbol = input.getD current.input_idx "" then
              input.getD current.input_idx "" else "ε") ≠ "ε"
        rw [if_pos hcons, ← hcons.2.2]
        exact hcons.1
      · show current.input_idx + (if trans.input_symbol ≠ "ε" ∧
            current.input_idx < input.length ∧
            trans.input_symbol = input.getD current.input_idx "" then 1 else 0) =
          current.input_idx + 1
        rw [if_pos hcons]
    · right
      refine ⟨?_, ?_⟩
      · show (if trans.input_symbol ≠ "ε" ∧ current.input_idx < input.length ∧
            trans.input_symbol = input.getD current.input_idx "" then
              input.getD current.input_idx "" else "ε") = "ε"
        rw [if_neg hcons]
      · show current.input_idx + (if trans.input_symbol ≠ "ε" ∧
            current.input_idx < input.length ∧
            trans.input_symbol = input.getD current.input_idx "" then 1 else 0) =
          current.input_idx
        rw [if_neg hcons]
        omega
  · rw [if_neg hm] at h
    exact Option.noConfusion h

theorem applyPDA_consumed (pda : PDA) (input : List String)
    (current next : SimulationState) (trans : PDATransition)
    (h : applyPDATransition pda input current trans = some next)
    (hc : traceConsumed current.trace = current.input_idx ∧
      current.input_idx ≤ input.length) :
    traceConsumed next.trace = next.input_idx ∧ next.input_idx ≤ input.length := by
  obtain ⟨step, htr, hcase⟩ := applyPDA_shape pda input current next trans h
  rcases hcase with ⟨hsym, hidx, hlt⟩ | ⟨hsym, hidx⟩
  · refine ⟨?_, ?_⟩
    · rw [htr, traceConsumed_append, hc.1, traceConsumed_singleton, if_pos hsym, hidx]
    · rw [hidx]
      omega
  · refine ⟨?_, ?_⟩
    · rw [htr, traceConsumed_append, hc.1, traceConsumed_singleton,
        if_neg (fun hx => hx hsym), hidx]
      omega
    · rw [hidx]
      exact hc.2

theorem simLoop_trace_bound (pda : PDA) (input : List String) :
    ∀ (fuel : Nat) (queue : List SimulationState) (bc : Nat) (bt : List PDAStep)
      (dq : Nat),
      (∀ c ∈ queue, traceConsumed c.trace = c.input_idx ∧
        c.input_idx ≤ input.length) →
      traceConsumed bt = bc → bc ≤ input.length →
      traceConsumed (simLoop pda input fuel queue bc bt dq).1.steps ≤ input.length := by
  intro fuel
  induction fuel with
  | zero =>
    intro queue bc bt dq hq hbt hbc
    cases queue with
    | nil =>
      rw [simLoop_nil]
      show traceConsumed bt ≤ input.length
      omega
    | cons c rest =>
      rw [simLoop_zero]
      show traceConsumed bt ≤ input.length
      omega
  | succ n ih =>
    intro queue bc bt dq hq hbt hbc
    cases queue with
    | nil =>
      rw [simLoop_nil]
      show traceConsumed bt ≤ input.length
      omega
    | cons current rest =>
      have hcur := hq current (by simp)
      rw [simLoop_succ_eq]
      by_cases hacc : current.input_idx = input.length ∧
          (pda.states.getD current.state_idx default).accepting
      · rw [if_pos hacc]
        show traceConsumed current.trace ≤ input.length
        rw [hcur.1]
        exact hcur.2
      · rw [if_neg hacc]
        apply ih
        · intro c hcm
          rcases List.mem_append.mp hcm with h | h
          · exact hq c (by simp [h])
          · obtain ⟨tr, _, happ⟩ := List.mem_filterMap.mp h
            exact applyPDA_consumed pda input current c tr happ hcur
        · by_cases hb : bc < current.input_idx
          · rw [if_pos hb]
            exact hcur.1
          · rw [if_neg hb]
            exact hbt
        · by_cases hb : bc < current.input_idx
          · rw [if_pos hb]
            exact hcur.2
          · rw [if_neg hb]
            exact hbc

/-- C8 (amended): the simulator dequeues at most `max_steps + 1 = 50001`
configurations (the C++ post-increment guard admits one extra
iteration), and the trace it returns never consumes more input symbols
than the input has. -/
theorem claim_C8_pda_bounds (pda : PDA) (input : List String) :
    (simulate_pda_instr pda input).2 ≤ max_steps + 1 ∧
    traceConsumed (simulate_pda pda input).steps ≤ input.length := by
  constructor
  · have h := simLoop_dequeues_le pda input (max_steps + 1)
      [{ state_idx := pda.start }] 0 [] 0
    simpa [simulate_pda_instr] using h
  · have h := simLoop_trace_bound pda input (max_steps + 1)
      [{ state_idx := pda.start }] 0 [] 0 ?_ rfl (Nat.zero_le _)
    · simpa [simulate_pda, simulate_pda_instr] using h
    · intro c hc
      simp only [List.mem_singleton] at hc
      subst hc
      exact ⟨rfl, Nat.zero_le _⟩

theorem applyPDA_eps (pda : PDA) (input : List String) (current : SimulationState)
    (trans : PDATransition) (h1 : trans.input_symbol = "ε")
    (h2 : trans.pop_symbol = "ε") :
    ∃ next, applyPDATransition pda input current trans = some next ∧
      next.state_idx = trans.next_state ∧ next.input_idx = current.input_idx := by
  simp only [applyPDATransition]
  rw [if_pos ⟨Or.inl h1, Or.inl h2⟩]
  refine ⟨_, rfl, rfl, ?_⟩
  show current.input_idx + (if trans.input_symbol ≠ "ε" ∧
      current.input_idx < input.length ∧
      trans.input_symbol = input.getD current.input_idx "" then 1 else 0) =
    current.input_idx
  rw [if_neg (fun hx => hx.1 h1)]
  omega

theorem selfLoop_next (c : SimulationState) (h0 : c.state_idx = 0) :
    ∃ c', (selfLoopPDA.states.getD c.state_idx default).transitions.filterMap
        (applyPDATransition selfLoopPDA [] c) = [c'] ∧
      c'.state_idx = 0 ∧ c'.input_idx = c.input_idx := by
  rw [h0]
  obtain ⟨next, happ, hst, hidx⟩ := applyPDA_eps selfLoopPDA [] c
    { input_symbol := "ε", pop_symbol := "ε", push_symbols := [], next_state := 0 }
    rfl rfl
  refine ⟨next, ?_, hst, hidx⟩
  show List.filterMap (applyPDATransition selfLoopPDA [] c)
      [{ input_symbol := "ε", pop_symbol := "ε", push_symbols := [], next_state := 0 }]
      = [next]
  rw [List.filterMap_cons, happ]
  rfl

theorem selfLoop_dequeues :
    ∀ (fuel : Nat) (c : SimulationState), c.state_idx = 0 →
      ∀ (bc : Nat) (bt : List PDAStep) (dq : Nat),
        (simLoop selfLoopPDA [] fuel [c] bc bt dq).2 = dq + fuel := by
  intro fuel
  induction fuel with
  | zero =>
    intro c h0 bc bt dq
    rw [simLoop_zero]
    show dq = dq + 0
    omega
  | succ n ih =>
    intro c h0 bc bt dq
    rw [simLoop_succ_eq]
    have hacc : ¬ (c.input_idx = ([] : List String).length ∧
        (selfLoopPDA.states.getD c.state_idx default).accepting) := by
      rw [h0]
      intro hx
      exact absurd hx.2 (by decide)
    rw [if_neg hacc]
    obtain ⟨c', hfm, h0', _⟩ := selfLoop_next c h0
    rw [hfm, List.nil_append]
    rw [ih c' h0' _ _ (dq + 1)]
    omega

/-- C8 counterexample: on the self-looping PDA the simulator performs
`max_steps + 1 = 50001` dequeue iterations — more than the configured
cap of 50000 — because the C++ guard `steps_count++ > max_steps` is a
post-increment strict comparison. -/
theorem claim_C8_counterexample :
    (simulate_pda_instr selfLoopPDA []).2 = max_steps + 1 ∧
    max_steps < (simulate_pda_instr selfLoopPDA []).2 := by
  have h := selfLoop_dequeues (max_steps + 1) { state_idx := selfLoopPDA.start }
    rfl 0 [] 0
  constructor
  · rw [simulate_pda_instr, h]
    omega
  · rw [simulate_pda_instr, h]
    omega

/-! ### The grammar loader's transition table (claim C10) -/

theorem add_state_names (g : GrammarDFA) (n : String) :
    (g.add_state_if_missing n).names =
      if n ∈ g.names then g.names else g.names ++ [n] := by
  rw [GrammarDFA.add_state_if_missing]
  by_cases h : n ∈ g.names
  · rw [if_pos h, if_pos h]
  · rw [if_neg h, if_neg h]

theorem add_state_mem (g : GrammarDFA) (n : String) :
    n ∈ (g.add_state_if_missing n).names := by
  rw [add_state_names]
  by_cases h : n ∈ g.names
  · rw [if_pos h]
    exact h
  · rw [if_neg h]
    simp

theorem add_state_mem_mono (g : GrammarDFA) (n x : String) (hx : x ∈ g.names) :
    x ∈ (g.add_state_if_missing n).names := by
  rw [add_state_names]
  by_cases h : n ∈ g.names
  · rw [if_pos h]
    exact hx
  · rw [if_neg h]
    exact List.mem_append_left _ hx

theorem add_state_lengths (g : GrammarDFA) (n : String)
    (h : g.trans.length = g.names.length) :
    (g.add_state_if_missing n).trans.length =
      (g.add_state_if_missing n).names.length := by
  rw [GrammarDFA.add_state_if_missing]
  by_cases hm : n ∈ g.names
  · rw [if_pos hm]
    exact h
  · rw [if_neg hm]
    simp [h]

theorem indexOfStr_append_of_mem (l1 l2 : List String) (a : String) (h : a ∈ l1) :
    indexOfStr (l1 ++ l2) a = indexOfStr l1 a := by
  induction l1 with
  | nil => simp at h
  | cons b rest ih =>
    rw [List.cons_append, indexOfStr, indexOfStr]
    by_cases hb : b = a
    · rw [if_pos hb, if_pos hb]
    · rw [if_neg hb, if_neg hb]
      have h' : a ∈ rest := by
        rcases List.mem_cons.mp h with h1 | h1
        · exact absurd h1.symm hb
        · exact h1
      rw [ih h']

theorem indexOfStr_isSome_of_mem (l : List String) (a : String) (h : a ∈ l) :
    ∃ k, indexOfStr l a = some k ∧ k < l.length := by
  induction l with
  | nil => simp at h
  | cons b rest ih =>
    by_cases hb : b = a
    · refine ⟨0, ?_, by simp⟩
      rw [indexOfStr, if_pos hb]
    · have h' : a ∈ rest := by
        rcases List.mem_cons.mp h with h1 | h1
        · exact absurd h1.symm hb
        · exact h1
      obtain ⟨k, hk, hlt⟩ := ih h'
      refine ⟨k + 1, ?_, by simp; omega⟩
      rw [indexOfStr, if_neg hb, hk]
      rfl

theorem idxOf_lt_of_mem (g : GrammarDFA) (x : String) (hx : x ∈ g.names) :
    g.idxOf x < g.names.length := by
  obtain ⟨k, hk, hlt⟩ := indexOfStr_isSome_of_mem g.names x hx
  rw [GrammarDFA.idxOf, hk]
  simpa using hlt

theorem add_transition_overwrites (g : GrammarDFA) (src sym dst : String)
    (hlen : g.trans.length = g.names.length) :
    lookupTr ((g.add_transition src sym dst).trans.getD
      ((g.add_transition src sym dst).idxOf src) []) sym =
      some ((g.add_transition src sym dst).idxOf dst) := by
  set g1 := (g.add_state_if_missing src).add_state_if_missing dst with hg1
  have hsrc : src ∈ g1.names :=
    add_state_mem_mono _ dst src (add_state_mem g src)
  have hlen1 : g1.trans.length = g1.names.length :=
    add_state_lengths _ dst (add_state_lengths g src hlen)
  have hilt : g1.idxOf src < g1.trans.length := by
    rw [hlen1]
    exact idxOf_lt_of_mem g1 src hsrc
  show lookupTr ((g1.trans.set (g1.idxOf src)
      (setTr (g1.trans.getD (g1.idxOf src) []) sym (g1.idxOf dst))).getD
        (g1.idxOf src) []) sym = some (g1.idxOf dst)
  rw [getD_set_self _ _ _ _ hilt]
  exact lookupTr_setTr_self _ sym _

/-- C10: `add_transition` overwrites the (source, symbol) binding, and
the loader applies all unit-terminal rules before all binary rules;
concretely, in the reloaded scenario-S1 grammar — whose `S` rule has
both the unit-terminal alternative `x` and the binary alternative
`T0 A0` on the same terminal — the loaded transition of `S` on `"x"`
targets `A0`, not `Accept`. -/
theorem claim_C10_loader_overwrite :
    (∀ (g : GrammarDFA) (src sym dst : String),
      g.trans.length = g.names.length →
      lookupTr ((g.add_transition src sym dst).trans.getD
        ((g.add_transition src sym dst).idxOf src) []) sym =
        some ((g.add_transition src sym dst).idxOf dst)) ∧
    ("S", "x") ∈ ((DFA.to_chomsky_lines minS1).foldl parseLine {}).terminal_rules ∧
    ("S", "T0 A0") ∈ ((DFA.to_chomsky_lines minS1).foldl parseLine {}).binary_rules ∧
    lookupTr (gS1.trans.getD (gS1.idxOf "S") []) "x" = some (gS1.idxOf "A0") ∧
    gS1.idxOf "A0" ≠ gS1.idxOf "Accept" := by
  refine ⟨?_, by decide, by decide, by decide, by decide⟩
  intro g src sym dst hlen
  exact add_transition_overwrites g src sym dst hlen

/-- C10 witness: overwriting the already-present binding of `S` on
`"x"` in the loaded scenario-S1 table. -/
theorem claim_C10_witness :
    lookupTr ((gS1.add_transition "S" "x" "Accept").trans.getD
      ((gS1.add_transition "S" "x" "Accept").idxOf "S") []) "x" =
      some ((gS1.add_transition "S" "x" "Accept").idxOf "Accept") :=
  claim_C10_loader_overwrite.1 gS1 "S" "x" "Accept" (by decide)

end AutomataSecurity
